import Mathlib

/-!
Verification of the two maintenance scripts of the propertyhubkh repository:
`scripts/process_project_images.py` (image watermarker) and
`scripts/sync_project_assets.py` (asset synchronizer).

The scripts are shallowly embedded: paths are lists of components, file
contents are abstract `Nat` values, the sha256 digest and the re-encoded
watermarked bytes are abstract function parameters, and the per-file loop of
each script is an explicit fold over the scanned file list.  Fallible steps
(the unguarded `sha256_file` read, the synchronizer's unguarded `json.loads`)
are modelled with `Except`.  Case folding models Python `str.lower` on the
ASCII range, which covers every filename constant in the scripts.
-/

/-- Lowercase a string character by character (Python `str.lower`, ASCII range). -/
def strLower (s : String) : String := ⟨s.data.map Char.toLower⟩

/-- Substring test on character lists: does `l` contain `pat` as a contiguous
infix?  Models the Python `tok in name` test. -/
def hasSub (l pat : List Char) : Bool :=
  match l with
  | [] => pat.isEmpty
  | _ :: t => pat.isPrefixOf l || hasSub t pat

/-- Python `str.strip`: drop leading and trailing whitespace. -/
def pyStrip (s : String) : String :=
  ⟨((s.data.dropWhile Char.isWhitespace).reverse.dropWhile Char.isWhitespace).reverse⟩

/-- `SUPPORTED_EXT` from process_project_images.py line 14. -/
def SUPPORTED_EXT : List String := [".jpg", ".jpeg", ".png", ".webp"]

/-- `SKIP_NAME_TOKENS` from process_project_images.py line 15. -/
def SKIP_NAME_TOKENS : List String := ["_wm", "watermark", "logo"]

/-- `Path.as_posix()`: join the path components with `/`. -/
def posixOf (parts : List String) : String := String.intercalate "/" parts

/-- Final component of a path (`Path.name`). -/
def nameOf (parts : List String) : String := parts.getLastD ""

/-- Split a filename into `(stem, suffix)` following `pathlib`: the suffix is
the part from the last dot on, provided that dot is neither the first nor the
last character of the name. -/
def splitExt (name : String) : String × String :=
  let r := name.data.reverse
  match r.findIdx? (fun c => c = '.') with
  | none => (name, "")
  | some k =>
    if 1 ≤ k ∧ k + 1 < r.length then
      (⟨(r.drop (k + 1)).reverse⟩, ⟨'.' :: (r.take k).reverse⟩)
    else (name, "")

/-- `Path.suffix` of a path given by components. -/
def pathSuffix (parts : List String) : String := (splitExt (nameOf parts)).2

/-- `Path.stem` of a path given by components. -/
def pathStem (parts : List String) : String := (splitExt (nameOf parts)).1

/-- `Path(s)` component parsing: split on `/`, dropping empty and `.`
segments as pathlib normalisation does. -/
def pathPartsOf (s : String) : List String :=
  (s.splitOn "/").filter (fun seg => seg ≠ "" && seg ≠ ".")

/-- `is_already_watermarked` (lines 54-56): the lowercased filename contains
one of the `SKIP_NAME_TOKENS`. -/
def is_already_watermarked (name : String) : Bool :=
  SKIP_NAME_TOKENS.any (fun tok => hasSub (strLower name).data tok.data)

/-- Extension alternatives of the card-variant regex (line 61). -/
def cardVariantExts : List String := ["jpg", "jpeg", "png", "webp"]

/-- Helper for the `main-<digits>w.<ext>` alternative of the card-variant
regex: working on the reversed lowercased name, match `ext` + `.` + `w`, then
a nonempty digit run, then `-niam` (the reverse of `main-`). -/
def digitVariantMatch (n : List Char) (e : String) : Bool :=
  let r := n.reverse
  let tl := e.data.reverse ++ ['.', 'w']
  if tl.isPrefixOf r then
    let r2 := r.drop tl.length
    let ds := r2.takeWhile Char.isDigit
    !ds.isEmpty && ("main-".data.reverse.isPrefixOf (r2.drop ds.length))
  else false

/-- `is_project_card_variant` (lines 59-61): `re.search` of the
end-anchored pattern `main(?:-\d+w)?\.(jpg|jpeg|png|webp)$` on the lowercased
filename, i.e. the name ends in `main.<ext>` or `main-<digits>w.<ext>`. -/
def is_project_card_variant (name : String) : Bool :=
  let n := (strLower name).data
  cardVariantExts.any (fun e =>
    ("main." ++ e).data.isSuffixOf n || digitVariantMatch n e)

/-- `path.relative_to(root_dir.parent) if root_dir.parent in path.parents
else path` (line 137): `root_dir.parent` is in `path.parents` exactly when
its components are a proper prefix of the path's components. -/
def relPathParts (rootParts parts : List String) : List String :=
  let par := rootParts.dropLast
  if par.isPrefixOf parts ∧ par ≠ parts then parts.drop par.length else parts

/-- Association-list lookup by string key (first match), modelling Python
dict access. -/
def lookupA {β : Type} : List (String × β) → String → Option β
  | [], _ => none
  | (k0, v0) :: t, k => if k0 = k then some v0 else lookupA t k

/-- Association-list update: replace the value at the first occurrence of the
key, or append a new pair, preserving Python dict insertion order. -/
def setA {β : Type} : List (String × β) → String → β → List (String × β)
  | [], k, v => [(k, v)]
  | (k0, v0) :: t, k, v =>
    if k0 = k then (k0, v) :: t else (k0, v0) :: setA t k v

/-- One file of the watermarker's scan.  `content` abstracts the file bytes;
`readOk` is whether opening the file for reading succeeds (used by
`sha256_file`), `decodeOk` whether `Image.open(...).load()` succeeds, and
`saveOk` whether `save_optimized` succeeds.  `width`/`height` are the decoded
pixel dimensions. -/
structure WFile where
  parts : List String
  content : Nat
  width : Nat
  height : Nat
  readOk : Bool
  decodeOk : Bool
  saveOk : Bool
deriving DecidableEq

/-- Run parameters of the watermarker.  `hashFn` abstracts the sha256 hex
digest of file bytes, `reencode` the bytes produced by compositing the
watermark and re-encoding (`save_optimized`).  `changedSet` is the set
computed by `git_changed_images`, `card_images` the set loaded by
`load_project_card_images`, and `rootParts` the `--root` path.  The ratio,
opacity, margin, quality and backup-dir options only affect pixel data and
backup copies, which the claims do not mention, so they are not carried. -/
structure WParams where
  hashFn : Nat → String
  reencode : WFile → Nat
  dry_run : Bool
  record_only : Bool
  changedSet : List (List String)
  card_images : List (List String)
  rootParts : List String

/-- `process_file` (lines 126-156) restricted to its returned classification:
card-path and card-variant checks, then the watermark-name check, then the
guarded image pipeline in which a decode failure is caught as `error`, images
under 300 pixels in either dimension are `skip_small`, a save failure in
apply mode is caught as `error`, and everything else is `processed`. -/
def process_file (p : WParams) (f : WFile) : String :=
  if p.card_images.contains (relPathParts p.rootParts f.parts) then "skip_project_card"
  else if is_project_card_variant (nameOf f.parts) then "skip_project_card"
  else if is_already_watermarked (nameOf f.parts) then "skip_watermarked_name"
  else if !f.decodeOk then "error"
  else if f.width < 300 ∨ f.height < 300 then "skip_small"
  else if !p.dry_run && !f.saveOk then "error"
  else "processed"

/-- The counts dict initialised at lines 217-225. -/
def initCounts : List (String × Nat) :=
  [("processed", 0), ("skipped_unchanged", 0), ("skip_project_card", 0),
   ("skip_watermarked_name", 0), ("skip_small", 0), ("skip_manifest", 0),
   ("error", 0)]

/-- `counts.get(key, 0)`. -/
def getCount (c : List (String × Nat)) (k : String) : Nat :=
  (lookupA c k).getD 0

/-- `counts[key] = counts.get(key, 0) + 1`. -/
def bump (c : List (String × Nat)) (k : String) : List (String × Nat) :=
  setA c k (getCount c k + 1)

/-- State threaded through the main loop: the in-memory manifest, the counts
dict, and the files visited so far with their current bytes. -/
structure RunState where
  manifest : List (String × String)
  counts : List (String × Nat)
  outFiles : List WFile
deriving DecidableEq

/-- One iteration of the main loop (lines 227-257) for a file whose content
hash was computed successfully: the changed-only skip, the manifest skip, the
record-only branch, then `process_file` with the in-place rewrite and the
manifest update after a successful non-dry-run processing. -/
def mainStep (p : WParams) (st : RunState) (f : WFile) : RunState :=
  if p.changedSet ≠ [] ∧ ¬ p.changedSet.contains f.parts then
    { st with counts := bump st.counts "skipped_unchanged",
              outFiles := st.outFiles ++ [f] }
  else
    let key := posixOf f.parts
    let cur := p.hashFn f.content
    if lookupA st.manifest key = some cur then
      { st with counts := bump st.counts "skip_manifest",
                outFiles := st.outFiles ++ [f] }
    else if p.record_only then
      { manifest := setA st.manifest key cur,
        counts := bump st.counts "skip_manifest",
        outFiles := st.outFiles ++ [f] }
    else
      let r := process_file p f
      if r = "processed" ∧ ¬ p.dry_run then
        let f2 : WFile := { f with content := p.reencode f }
        { manifest := setA st.manifest key (p.hashFn f2.content),
          counts := bump st.counts r,
          outFiles := st.outFiles ++ [f2] }
      else
        { st with counts := bump st.counts r, outFiles := st.outFiles ++ [f] }

/-- One iteration of the main loop including the fallible `sha256_file` call
at line 232, which sits outside every try/except: an unreadable file raises
and the exception propagates out of `main`.  The changed-only check at line
228 precedes the hash computation. -/
def mainStepE (p : WParams) (st : RunState) (f : WFile) : Except String RunState :=
  if p.changedSet ≠ [] ∧ ¬ p.changedSet.contains f.parts then
    Except.ok { st with counts := bump st.counts "skipped_unchanged",
                        outFiles := st.outFiles ++ [f] }
  else if !f.readOk then
    Except.error "sha256_file raised: file unreadable"
  else
    Except.ok (mainStep p st f)

/-- The watermarker's main loop over the scanned images (`iter_images`
output, in scan order), starting from a freshly loaded manifest and the
zeroed counts dict.  An `Except.error` result models the run dying with an
uncaught exception before printing the summary. -/
def runMain (p : WParams) (m0 : List (String × String)) (files : List WFile) :
    Except String RunState :=
  List.foldlM (mainStepE p) ⟨m0, initCounts, []⟩ files

/-- The same loop under the assumption that every content hash computation
succeeds. -/
def runPure (p : WParams) (m0 : List (String × String)) (files : List WFile) :
    RunState :=
  List.foldl (mainStep p) ⟨m0, initCounts, []⟩ files

/-- The manifest as persisted at lines 271-272: written back only when the
run completed and `--dry-run` is off; an aborted run leaves the manifest file
as loaded. -/
def persistedManifest (p : WParams) (m0 : List (String × String))
    (files : List WFile) : List (String × String) :=
  match runMain p m0 files with
  | Except.error _ => m0
  | Except.ok st => if p.dry_run then m0 else st.manifest

/-- The summary printed at lines 261-270, as the ordered list of category
counts. -/
def summaryOf (c : List (String × Nat)) : List (String × Nat) :=
  ["processed", "skipped_unchanged", "skip_manifest", "skip_project_card",
   "skip_watermarked_name", "skip_small", "error"].map (fun k => (k, getCount c k))

/-- Static classification of one file against the initial manifest: the
outcome the main loop tallies for the file when no earlier file touched its
manifest key. -/
def fileOutcome (p : WParams) (m0 : List (String × String)) (f : WFile) : String :=
  if p.changedSet ≠ [] ∧ ¬ p.changedSet.contains f.parts then "skipped_unchanged"
  else if lookupA m0 (posixOf f.parts) = some (p.hashFn f.content) then "skip_manifest"
  else if p.record_only then "skip_manifest"
  else process_file p f

/-- Final bytes of one file after its loop iteration: rewritten only by a
successful non-dry-run processing. -/
def expectedContent (p : WParams) (m0 : List (String × String)) (f : WFile) : Nat :=
  if p.changedSet ≠ [] ∧ ¬ p.changedSet.contains f.parts then f.content
  else if lookupA m0 (posixOf f.parts) = some (p.hashFn f.content) then f.content
  else if p.record_only then f.content
  else if process_file p f = "processed" ∧ ¬ p.dry_run then p.reencode f
  else f.content

/-- One file with its final bytes. -/
def expectedFile (p : WParams) (m0 : List (String × String)) (f : WFile) : WFile :=
  { f with content := expectedContent p m0 f }

/-- Final manifest value at one file's key after its loop iteration. -/
def expectedEntry (p : WParams) (m0 : List (String × String)) (f : WFile) :
    Option String :=
  let key := posixOf f.parts
  if p.changedSet ≠ [] ∧ ¬ p.changedSet.contains f.parts then lookupA m0 key
  else if lookupA m0 key = some (p.hashFn f.content) then lookupA m0 key
  else if p.record_only then some (p.hashFn f.content)
  else if process_file p f = "processed" ∧ ¬ p.dry_run then
    some (p.hashFn (p.reencode f))
  else lookupA m0 key

/-- `git_changed_images` (lines 27-51).  `avail` is whether the
`git status --porcelain -z -uall` subprocess succeeds (on failure the
function returns the empty set); `entries` are the NUL-separated status
records, each `XY <path>`; `fs` is the list of files on disk.  A record
whose path denotes a directory (modelled as: some scanned file lies strictly
below it) contributes every supported image below it; otherwise the path
itself is added when its extension is supported and the file exists. -/
def git_changed_images (avail : Bool) (entries : List String)
    (rootParts : List String) (fs : List WFile) : List (List String) :=
  if !avail then []
  else
    entries.foldl (fun acc entry =>
      if entry = "" then acc
      else
        let rel : String := ⟨entry.data.drop 3⟩
        let p := pathPartsOf rel
        if !((posixOf rootParts).isPrefixOf (posixOf p)) then acc
        else if fs.any (fun f => p.isPrefixOf f.parts && p ≠ f.parts) then
          acc ++ (fs.filter (fun f => p.isPrefixOf f.parts && p ≠ f.parts &&
            SUPPORTED_EXT.contains (strLower (pathSuffix f.parts)))).map WFile.parts
        else if !(SUPPORTED_EXT.contains (strLower (pathSuffix p))) then acc
        else if fs.any (fun f => f.parts = p) then acc ++ [p]
        else acc) []

/-- JSON values as produced by `json.loads` (numbers restricted to integers;
the catalog and manifest of this repository contain none that are not). -/
inductive Json where
  | null : Json
  | bool : Bool → Json
  | num : Int → Json
  | str : String → Json
  | arr : List Json → Json
  | obj : List (String × Json) → Json

/-- Python `str()` applied to a decoded JSON value, as the manifest loader
does in its dict comprehension.  Container rendering is simplified to a
placeholder repr (string quoting and element separators are not reproduced);
no claim evaluates this branch, since manifest values are hash strings. -/
def pyStr : Json → String
  | Json.null => "None"
  | Json.bool true => "True"
  | Json.bool false => "False"
  | Json.num n => toString n
  | Json.str s => s
  | Json.arr _ => "[...]"
  | Json.obj _ => "\x7b...\x7d"

/-- `load_manifest` (lines 167-176): a missing file, an unparsable file
(`parsed = none`) or a parsed value that is not a dict all yield the empty
mapping; a dict is converted with `str` on both sides. -/
def load_manifest (fileExists : Bool) (parsed : Option Json) :
    List (String × String) :=
  if !fileExists then []
  else
    match parsed with
    | none => []
    | some (Json.obj kvs) => kvs.map (fun kv => (kv.1, pyStr kv.2))
    | some _ => []

/-- `load_project_card_images` (lines 64-85): a missing or unparsable catalog
yields the empty set; otherwise every list item that is a dict with a
nonempty string `image` field contributes the path obtained by deleting every
`./` occurrence and turning `%20` into a space.  The Python set is modelled
as a list used only for membership. -/
def load_project_card_images (fileExists : Bool) (parsed : Option Json) :
    List (List String) :=
  if !fileExists then []
  else
    match parsed with
    | none => []
    | some d =>
      let items := match d with | Json.arr xs => xs | _ => []
      items.foldl (fun acc item =>
        match item with
        | Json.obj kvs =>
          match lookupA kvs "image" with
          | some (Json.str s) =>
            if pyStrip s = "" then acc
            else acc ++ [pathPartsOf ((s.replace "./" "").replace "%20" " ")]
          | _ => acc
        | _ => acc) []

/-- `IMAGE_EXT` from sync_project_assets.py line 8. -/
def IMAGE_EXT : List String := [".jpg", ".jpeg", ".png", ".webp"]

/-- `ASSET_EXT` from sync_project_assets.py line 9. -/
def ASSET_EXT : List String := [".jpg", ".jpeg", ".png", ".webp", ".pdf"]

/-- `EXT_PREFERENCE` from sync_project_assets.py line 10, with the `.get`
default 99 folded in. -/
def EXT_PREFERENCE (ext : String) : Nat :=
  if ext = ".webp" then 0
  else if ext = ".jpg" then 1
  else if ext = ".jpeg" then 2
  else if ext = ".png" then 3
  else 99

/-- `PROJECT_FOLDER_MAP` from sync_project_assets.py lines 12-29. -/
def PROJECT_FOLDER_MAP : List (String × String) :=
  [("Time Square 7", "Time Square 7"), ("Time Square 8", "Time Square 8"),
   ("Time Square 9", "Time Square 9"), ("Time Square 10", "Time Square 10"),
   ("Kingston Royale", "Kingston Royale"), ("Le Conde", "Le Conde"),
   ("J Tower 3", "J-Tower 3"), ("Odom Tower", "ODOM Tower"),
   ("Odom Living", "Odom Living"), ("UC88 Wyndham Garden", "UC88 (Wyndham Garden)"),
   ("Diamond Bay Garden", "Diamond Bay Garden"), ("Angkor Grace", "Angkor Grace"),
   ("Rose Apple Square", "Rose Apple Square"),
   ("LZ Sea View Premium", "LZ Sea View Premium"),
   ("Picasso Sky Gemme", "Picasso Sky Gemme"), ("GATO Tower", "GATO Tower")]

/-- Characters `urllib.parse.quote` leaves unescaped with
`safe="/._-()"`: ASCII alphanumerics, the always-safe `_.-~`, and the safe
parameter's `/()`. -/
def quoteSafeChar (c : Char) : Bool :=
  ('A' ≤ c && c ≤ 'Z') || ('a' ≤ c && c ≤ 'z') || ('0' ≤ c && c ≤ '9') ||
  c = '_' || c = '.' || c = '-' || c = '~' || c = '/' || c = '(' || c = ')'

/-- Uppercase hexadecimal digit for a value below 16. -/
def hexDigitUpper (n : Nat) : Char :=
  if n < 10 then Char.ofNat ('0'.toNat + n) else Char.ofNat ('A'.toNat + (n - 10))

/-- Percent-encoding of one byte. -/
def percentEncodeByte (b : UInt8) : List Char :=
  ['%', hexDigitUpper (b.toNat / 16), hexDigitUpper (b.toNat % 16)]

/-- `urllib.parse.quote(s, safe="/._-()")`: safe characters pass through,
every other character is replaced by the percent-encoding of its UTF-8
bytes. -/
def pyQuote (s : String) : String :=
  ⟨(s.data.map (fun c =>
      if quoteSafeChar c then [c]
      else ((String.utf8EncodeChar c).map percentEncodeByte).flatten)).flatten⟩

/-- `urlize` (lines 32-33). -/
def urlize (p : List String) : String := "./" ++ pyQuote (posixOf p)

/-- Lexicographic comparison of character lists by code point, the order
Python string comparison uses. -/
def lexLe : List Char → List Char → Bool
  | [], _ => true
  | _ :: _, [] => false
  | a :: as, b :: bs => if a < b then true else if b < a then false else lexLe as bs

/-- Sort key used throughout the synchronizer: `x.as_posix().lower()`. -/
def lowerPosixChars (p : List String) : List Char := (strLower (posixOf p)).data

/-- Stable insertion of one element into a sorted list: the element goes
before the first entry it compares less-or-equal to, so earlier list elements
with equal keys stay first, as in Python's stable `sorted`. -/
def insSorted (le : List String → List String → Bool) (x : List String) :
    List (List String) → List (List String)
  | [] => [x]
  | y :: ys => if le x y then x :: y :: ys else y :: insSorted le x ys

/-- `sorted(..., key=lambda x: x.as_posix().lower())` as a stable insertion
sort. -/
def sortByLower (l : List (List String)) : List (List String) :=
  l.foldr (insSorted (fun a b => lexLe (lowerPosixChars a) (lowerPosixChars b))) []

/-- The dedupe key of `dedupe_prefer` (line 39):
`parent.as_posix().lower() + "/" + stem.lower().strip()` (the backslash
replacement is a no-op on POSIX-style component paths). -/
def dedupeKey (p : List String) : String :=
  strLower (posixOf p.dropLast ++ (if p.dropLast = [] then "." else "")) ++ "/" ++
    pyStrip (strLower (pathStem p))

/-- Extension-preference rank of a path. -/
def rankOf (p : List String) : Nat := EXT_PREFERENCE (strLower (pathSuffix p))

/-- One iteration of the `dedupe_prefer` loop (lines 38-47): first occurrence
of a key is kept, a later occurrence replaces it only with a strictly better
extension rank. -/
def dedupeStep (sel : List (String × List String)) (p : List String) :
    List (String × List String) :=
  match lookupA sel (dedupeKey p) with
  | none => sel ++ [(dedupeKey p, p)]
  | some current =>
    if rankOf p < rankOf current then setA sel (dedupeKey p) p else sel

/-- `dedupe_prefer` (lines 36-48): fold the selection dict over the input,
then sort the surviving values by lowercased posix path. -/
def dedupe_prefer (paths : List (List String)) : List (List String) :=
  sortByLower ((paths.foldl dedupeStep []).map Prod.snd)

/-- The synchronizer's filesystem: the directories that exist and the files
that exist, each as component lists.  `rglob`/`iterdir` enumeration order is
the order of `files`. -/
structure SyncFS where
  dirs : List (List String)
  files : List (List String)
deriving DecidableEq

/-- `path.exists()`: the path is a known directory or file. -/
def pExists (fs : SyncFS) (d : List String) : Bool :=
  fs.dirs.contains d || fs.files.contains d

/-- `path.is_dir()`. -/
def isDirFS (fs : SyncFS) (d : List String) : Bool := fs.dirs.contains d

/-- Files strictly below `d`, as `rglob("*")` paired with `is_file()` yields
them. -/
def rglobFiles (fs : SyncFS) (d : List String) : List (List String) :=
  fs.files.filter (fun f => d.isPrefixOf f && f ≠ d)

/-- Direct child files of `d`, as `iterdir()` paired with `is_file()` yields
them. -/
def iterdirFiles (fs : SyncFS) (d : List String) : List (List String) :=
  fs.files.filter (fun f => f.dropLast = d && f ≠ d)

/-- `list_images` (lines 51-58): recursive scan, sorted case-insensitively,
filtered to asset extensions, deduplicated. -/
def list_images (fs : SyncFS) (d : List String) : List (List String) :=
  if pExists fs d && isDirFS fs d then
    dedupe_prefer ((sortByLower (rglobFiles fs d)).filter
      (fun f => ASSET_EXT.contains (strLower (pathSuffix f))))
  else []

/-- `list_top_level_images` (lines 61-68): direct children only, image
extensions only. -/
def list_top_level_images (fs : SyncFS) (d : List String) : List (List String) :=
  if pExists fs d && isDirFS fs d then
    dedupe_prefer ((sortByLower (iterdirFiles fs d)).filter
      (fun f => IMAGE_EXT.contains (strLower (pathSuffix f))))
  else []

/-- One catalog entry.  `rest` abstracts every field other than the name, the
main image and the four asset arrays; the script never touches those. -/
structure Project where
  name : String
  image : String
  images : List String
  floorPlans : List String
  facilities : List String
  unitLayouts : List String
  rest : Nat
deriving DecidableEq

/-- The floor-plan directory choice of lines 101-103: `Floor Plan` if it
exists, else `Floorplans`. -/
def floorDirOf (fs : SyncFS) (d : List String) : List String :=
  if pExists fs (d ++ ["Floor Plan"]) then d ++ ["Floor Plan"] else d ++ ["Floorplans"]

/-- The per-entry body of the synchronizer's main loop (lines 83-122): an
entry without a folder mapping or whose mapped folder does not exist is left
alone; otherwise the four asset arrays are recomputed from the folder scans
(the gallery excluding the entry's main image URL) and assigned
unconditionally. -/
def syncProject (fs : SyncFS) (root : List String) (pr : Project) : Project :=
  match lookupA PROJECT_FOLDER_MAP pr.name with
  | none => pr
  | some folderName =>
    let dir := root ++ [folderName]
    if !(pExists fs dir) then pr
    else
      { pr with
        images := ((list_top_level_images fs dir).map urlize).filter
          (fun e => e ≠ pr.image),
        floorPlans := (list_images fs (floorDirOf fs dir)).map urlize,
        facilities := (list_images fs (dir ++ ["Facility"])).map urlize,
        unitLayouts := (list_images fs (dir ++ ["Unit Layout"])).map urlize }

/-- Whether the loop reports `updated:` for an entry: the four arrays before
and after differ. -/
def syncChanged (fs : SyncFS) (root : List String) (pr : Project) : Bool :=
  let pr2 := syncProject fs root pr
  !(pr.images = pr2.images ∧ pr.floorPlans = pr2.floorPlans ∧
    pr.facilities = pr2.facilities ∧ pr.unitLayouts = pr2.unitLayouts : Bool)

/-- Result of one synchronizer run: the rewritten catalog, the change count,
and whether the catalog file was written back (dry-run skips the write). -/
structure SyncResult where
  projects : List Project
  changes : Nat
  wrote : Bool
deriving DecidableEq

/-- The synchronizer's main loop plus the final write decision
(lines 82-139). -/
def syncRun (fs : SyncFS) (root : List String) (catalog : List Project)
    (dry : Bool) : SyncResult :=
  { projects := catalog.map (syncProject fs root),
    changes := catalog.countP (syncChanged fs root),
    wrote := !dry }

/-- The synchronizer's entry point including the unguarded
`json.loads(projects_path.read_text(...))` at line 80: a catalog parse
failure (`none`) raises and the run aborts with an uncaught exception. -/
def syncMainEntry (parsedCatalog : Option (List Project)) (fs : SyncFS)
    (root : List String) (dry : Bool) : Except String SyncResult :=
  match parsedCatalog with
  | none => Except.error "json.loads raised: invalid catalog JSON"
  | some catalog => Except.ok (syncRun fs root catalog dry)

/-- Concrete watermarker parameters for the concrete runs below: the digest
function is decimal `toString`, re-encoding bumps the abstract byte value,
and the root is the default `Property Listing`. -/
def wmParams (dry rec : Bool) (changed card : List (List String)) : WParams :=
  ⟨fun n => toString n, fun f => f.content + 1, dry, rec, changed, card,
   ["Property Listing"]⟩

/-- A healthy 800x600 image file directly under the default root. -/
def goodFile (name : String) (c : Nat) : WFile :=
  ⟨["Property Listing", name], c, 800, 600, true, true, true⟩

/-- A file whose bytes cannot be read: `sha256_file` raises on it. -/
def unreadableFile : WFile :=
  ⟨["Property Listing", "broken.jpg"], 3, 800, 600, false, true, true⟩

/-- The grouping key the claim about `dedupe_prefer` describes: parent
directory plus case-insensitive stem.  Modelled from the claim's words, to be
compared with the code's `dedupeKey`, which additionally strips whitespace
from the stem. -/
def ciStemKey (p : List String) : String :=
  strLower (posixOf p.dropLast ++ (if p.dropLast = [] then "." else "")) ++ "/" ++
    strLower (pathStem p)

/-- A folder holding two assets whose code keys collide only because of
whitespace stripping: `a .jpg` and `a.webp`. -/
def fsStrip : SyncFS := ⟨[["R"]], [["R", "a .jpg"], ["R", "a.webp"]]⟩

/-- A mapped project folder holding exactly three top-level images, one of
which is the catalog entry's main image. -/
def fsLeConde : SyncFS :=
  ⟨[["Property Listing", "Le Conde"]],
   [["Property Listing", "Le Conde", "1.jpg"],
    ["Property Listing", "Le Conde", "2.jpg"],
    ["Property Listing", "Le Conde", "main.jpg"]]⟩

/-- A catalog entry for that folder with stale non-empty asset arrays. -/
def prLeConde : Project :=
  ⟨"Le Conde", urlize ["Property Listing", "Le Conde", "main.jpg"],
   ["./stale.jpg"], ["./stale-fp.jpg"], ["./stale-fac.jpg"], ["./stale-ul.jpg"], 42⟩

theorem lookupA_setA_self {β : Type} (c : List (String × β)) (k : String) (v : β) :
    lookupA (setA c k v) k = some v := by
  induction c with
  | nil => simp [setA, lookupA]
  | cons hd t ih =>
    obtain ⟨k0, v0⟩ := hd
    by_cases hk : k0 = k
    · simp [setA, lookupA, hk]
    · simp [setA, lookupA, hk, ih]

theorem lookupA_setA_ne {β : Type} (c : List (String × β)) (k k' : String) (v : β)
    (h : k' ≠ k) : lookupA (setA c k v) k' = lookupA c k' := by
  have h' : ¬ k = k' := fun hh => h hh.symm
  induction c with
  | nil => simp [setA, lookupA, h']
  | cons hd t ih =>
    obtain ⟨k0, v0⟩ := hd
    by_cases hk : k0 = k
    · subst hk
      simp [setA, lookupA, h']
    · simp [setA, lookupA, hk, ih]

theorem getCount_bump_self (c : List (String × Nat)) (k : String) :
    getCount (bump c k) k = getCount c k + 1 := by
  simp [bump, getCount, lookupA_setA_self]

theorem getCount_bump_ne (c : List (String × Nat)) (k k' : String) (h : k' ≠ k) :
    getCount (bump c k) k' = getCount c k' := by
  simp [bump, getCount, lookupA_setA_ne c k k' _ h]

theorem getCount_foldl_bump {α : Type} (out : α → String) (k : String) :
    ∀ (l : List α) (c0 : List (String × Nat)),
      getCount (l.foldl (fun c f => bump c (out f)) c0) k =
        getCount c0 k + l.countP (fun f => out f = k) := by
  intro l
  induction l with
  | nil => intro c0; simp
  | cons f t ih =>
    intro c0
    simp only [List.foldl_cons, ih, List.countP_cons]
    by_cases hf : out f = k
    · rw [hf, getCount_bump_self]
      simp [hf]
      omega
    · rw [getCount_bump_ne c0 (out f) k (fun hh => hf hh.symm)]
      simp [hf]

theorem wfile_eta (f : WFile) : ({ f with content := f.content } : WFile) = f := rfl

theorem mainStepE_ok (p : WParams) (st : RunState) (f : WFile)
    (h : f.readOk = true) : mainStepE p st f = Except.ok (mainStep p st f) := by
  unfold mainStepE mainStep
  split
  · rfl
  · simp [h]

theorem runMain_ok_from (p : WParams) :
    ∀ (files : List WFile) (st : RunState),
      (∀ f ∈ files, f.readOk = true) →
      List.foldlM (mainStepE p) st files = Except.ok (List.foldl (mainStep p) st files) := by
  intro files
  induction files with
  | nil => intro st _; rfl
  | cons f t ih =>
    intro st hr
    have hf : f.readOk = true := hr f (by simp)
    have ht : ∀ g ∈ t, g.readOk = true := fun g hg => hr g (by simp [hg])
    simp only [List.foldlM_cons, mainStepE_ok p st f hf, List.foldl_cons]
    simpa using ih (mainStep p st f) ht

theorem runMain_ok (p : WParams) (m0 : List (String × String)) (files : List WFile)
    (h : ∀ f ∈ files, f.readOk = true) :
    runMain p m0 files = Except.ok (runPure p m0 files) :=
  runMain_ok_from p files ⟨m0, initCounts, []⟩ h

theorem mainStep_counts (p : WParams) (m0 : List (String × String)) (st : RunState)
    (f : WFile)
    (h : lookupA st.manifest (posixOf f.parts) = lookupA m0 (posixOf f.parts)) :
    (mainStep p st f).counts = bump st.counts (fileOutcome p m0 f) := by
  unfold mainStep fileOutcome
  simp only []
  rw [h]
  split
  · rfl
  · split
    · rfl
    · split
      · rfl
      · split
        · rfl
        · rfl

theorem mainStep_outFiles (p : WParams) (m0 : List (String × String)) (st : RunState)
    (f : WFile)
    (h : lookupA st.manifest (posixOf f.parts) = lookupA m0 (posixOf f.parts)) :
    (mainStep p st f).outFiles = st.outFiles ++ [expectedFile p m0 f] := by
  unfold mainStep expectedFile expectedContent
  simp only []
  rw [h]
  split
  · rfl
  · split
    · rfl
    · split
      · rfl
      · split
        · rfl
        · rfl

theorem mainStep_lookup_self (p : WParams) (m0 : List (String × String))
    (st : RunState) (f : WFile)
    (h : lookupA st.manifest (posixOf f.parts) = lookupA m0 (posixOf f.parts)) :
    lookupA (mainStep p st f).manifest (posixOf f.parts) = expectedEntry p m0 f := by
  unfold mainStep expectedEntry
  simp only []
  rw [h]
  split
  · exact h
  · split
    · exact h
    · split
      · exact lookupA_setA_self _ _ _
      · split
        · exact lookupA_setA_self _ _ _
        · exact h

theorem mainStep_lookup_ne (p : WParams) (st : RunState) (f : WFile) (k : String)
    (hk : k ≠ posixOf f.parts) :
    lookupA (mainStep p st f).manifest k = lookupA st.manifest k := by
  unfold mainStep
  simp only []
  split
  · rfl
  · split
    · rfl
    · split
      · exact lookupA_setA_ne _ _ _ _ hk
      · split
        · exact lookupA_setA_ne _ _ _ _ hk
        · rfl

theorem run_spec (p : WParams) (m0 : List (String × String)) :
    ∀ (files : List WFile) (st : RunState),
      (∀ f ∈ files, lookupA st.manifest (posixOf f.parts) = lookupA m0 (posixOf f.parts)) →
      (files.map (fun f => posixOf f.parts)).Nodup →
      (List.foldl (mainStep p) st files).outFiles
          = st.outFiles ++ files.map (expectedFile p m0) ∧
      (List.foldl (mainStep p) st files).counts
          = files.foldl (fun c f => bump c (fileOutcome p m0 f)) st.counts ∧
      (∀ k, k ∉ files.map (fun f => posixOf f.parts) →
        lookupA (List.foldl (mainStep p) st files).manifest k = lookupA st.manifest k) ∧
      (∀ f ∈ files, lookupA (List.foldl (mainStep p) st files).manifest (posixOf f.parts)
          = expectedEntry p m0 f) := by
  intro files
  induction files with
  | nil =>
    intro st _ _
    exact ⟨by simp, rfl, fun k _ => rfl, fun f hf => absurd hf (by simp)⟩
  | cons f t ih =>
    intro st hag hnd
    have hagf : lookupA st.manifest (posixOf f.parts) = lookupA m0 (posixOf f.parts) :=
      hag f (by simp)
    have hnd' : (∀ x ∈ t, ¬ posixOf x.parts = posixOf f.parts) ∧
        (t.map (fun g => posixOf g.parts)).Nodup := by simpa using hnd
    have hkey : posixOf f.parts ∉ t.map (fun g => posixOf g.parts) := by
      intro hh
      obtain ⟨x, hx, hxe⟩ := List.mem_map.mp hh
      exact hnd'.1 x hx hxe
    have hndt : (t.map (fun g => posixOf g.parts)).Nodup := hnd'.2
    have hagt : ∀ g ∈ t,
        lookupA (mainStep p st f).manifest (posixOf g.parts)
          = lookupA m0 (posixOf g.parts) := by
      intro g hg
      by_cases hgk : posixOf g.parts = posixOf f.parts
      · exact absurd (List.mem_map.mpr ⟨g, hg, hgk⟩) hkey
      · rw [mainStep_lookup_ne p st f _ hgk]
        exact hag g (by simp [hg])
    obtain ⟨ho, hc, hne, hself⟩ := ih (mainStep p st f) hagt hndt
    refine ⟨?_, ?_, ?_, ?_⟩
    · rw [List.foldl_cons, ho, mainStep_outFiles p m0 st f hagf]
      simp
    · rw [List.foldl_cons, hc, mainStep_counts p m0 st f hagf]
      rfl
    · intro k hk
      have hk1 : k ≠ posixOf f.parts := by
        intro hh
        exact hk (by simp [hh])
      have hk2 : k ∉ t.map (fun g => posixOf g.parts) := by
        intro hh
        exact hk (by simp; right; simpa using hh)
      rw [List.foldl_cons, hne k hk2, mainStep_lookup_ne p st f k hk1]
    · intro g hg
      rcases List.mem_cons.mp hg with hgf | hgt
      · subst hgf
        rw [List.foldl_cons, hne (posixOf g.parts) hkey,
          mainStep_lookup_self p m0 st g hagf]
      · rw [List.foldl_cons]
        exact hself g hgt

theorem process_file_token_skip (p : WParams) (f : WFile)
    (htok : is_already_watermarked (nameOf f.parts) = true) :
    process_file p f = "skip_project_card" ∨ process_file p f = "skip_watermarked_name" := by
  unfold process_file
  split
  · exact Or.inl rfl
  · split
    · exact Or.inl rfl
    · exact Or.inr rfl

theorem process_file_card_skip (p : WParams) (f : WFile)
    (hcard : p.card_images.contains (relPathParts p.rootParts f.parts) = true ∨
      is_project_card_variant (nameOf f.parts) = true) :
    process_file p f = "skip_project_card" := by
  unfold process_file
  rcases hcard with h | h
  · rw [if_pos h]
  · split
    · rfl
    · rfl

theorem expectedContent_eq_self (p : WParams) (m0 : List (String × String)) (f : WFile)
    (h : ¬ (process_file p f = "processed" ∧ ¬ p.dry_run = true)) :
    expectedContent p m0 f = f.content := by
  unfold expectedContent
  split
  · rfl
  · split
    · rfl
    · split
      · rfl
      · rfl

theorem expectedFile_eq_self (p : WParams) (m0 : List (String × String)) (f : WFile)
    (h : ¬ (process_file p f = "processed" ∧ ¬ p.dry_run = true)) :
    expectedFile p m0 f = f := by
  unfold expectedFile
  rw [expectedContent_eq_self p m0 f h]

theorem fileOutcome_reach (p : WParams) (m0 : List (String × String)) (f : WFile)
    (hch : p.changedSet = [] ∨ f.parts ∈ p.changedSet)
    (hman : lookupA m0 (posixOf f.parts) ≠ some (p.hashFn f.content))
    (hrec : p.record_only = false) :
    fileOutcome p m0 f = process_file p f := by
  have h1 : ¬ (p.changedSet ≠ [] ∧ ¬ p.changedSet.contains f.parts = true) := by
    rcases hch with h | h
    · exact fun hc => hc.1 h
    · exact fun hc => hc.2 (by simpa using h)
  have h3 : ¬ p.record_only = true := by
    rw [hrec]
    simp
  unfold fileOutcome
  rw [if_neg h1, if_neg hman, if_neg h3]

theorem expectedEntry_unchanged (p : WParams) (m0 : List (String × String)) (f : WFile)
    (hrec : p.record_only = false)
    (hout : fileOutcome p m0 f ≠ "processed") :
    expectedEntry p m0 f = lookupA m0 (posixOf f.parts) := by
  unfold expectedEntry
  simp only []
  split
  · rfl
  next h1 =>
    split
    · rfl
    next h2 =>
      split
      · next h3 => rw [hrec] at h3; exact absurd h3 (by simp)
      next h3 =>
        split
        · next h4 =>
          exfalso
          apply hout
          unfold fileOutcome
          rw [if_neg h1, if_neg h2, if_neg h3]
          exact h4.1
        · rfl

theorem expectedEntry_record (p : WParams) (m0 : List (String × String)) (f : WFile)
    (hrec : p.record_only = true)
    (hns : fileOutcome p m0 f ≠ "skipped_unchanged") :
    expectedEntry p m0 f = some (p.hashFn f.content) := by
  unfold expectedEntry
  simp only []
  split
  · next h1 =>
    exfalso
    apply hns
    unfold fileOutcome
    rw [if_pos h1]
  next h1 =>
    split
    · next h2 => exact h2
    next h2 => rfl

theorem skipAll_aux (p : WParams) (hch : p.changedSet = []) :
    ∀ (files : List WFile) (st : RunState),
      (∀ f ∈ files, lookupA st.manifest (posixOf f.parts) = some (p.hashFn f.content)) →
      List.foldl (mainStep p) st files =
        { manifest := st.manifest,
          counts := files.foldl (fun c _ => bump c "skip_manifest") st.counts,
          outFiles := st.outFiles ++ files } := by
  intro files
  induction files with
  | nil =>
    intro st _
    simp
  | cons f t ih =>
    intro st hm
    have hf := hm f (by simp)
    have h1 : ¬ (p.changedSet ≠ [] ∧ ¬ p.changedSet.contains f.parts = true) :=
      fun hc => hc.1 hch
    have hstep : mainStep p st f =
        { st with counts := bump st.counts "skip_manifest",
                  outFiles := st.outFiles ++ [f] } := by
      unfold mainStep
      simp only []
      rw [if_neg h1, if_pos hf]
    rw [List.foldl_cons, hstep,
      ih { manifest := st.manifest, counts := bump st.counts "skip_manifest",
           outFiles := st.outFiles ++ [f] } (fun g hg => hm g (by simp [hg]))]
    simp

/-- C1: re-running the watermarker over an unchanged tree (so the changed-set
is empty, as `git status` reports nothing) with a manifest whose entry for
every scanned image equals that image's current content hash classifies every
image `skip_manifest` — the manifest check at line 233 fires before
`process_file` sees the file — produces zero `processed` results, and leaves
every image's bytes and every manifest entry exactly as they were. -/
theorem C1_rerun_unchanged_tree (p : WParams) (m0 : List (String × String))
    (files : List WFile)
    (hch : p.changedSet = [])
    (hread : ∀ f ∈ files, f.readOk = true)
    (hman : ∀ f ∈ files, lookupA m0 (posixOf f.parts) = some (p.hashFn f.content)) :
    runMain p m0 files = Except.ok (runPure p m0 files) ∧
    (runPure p m0 files).manifest = m0 ∧
    (runPure p m0 files).outFiles = files ∧
    getCount (runPure p m0 files).counts "processed" = 0 ∧
    getCount (runPure p m0 files).counts "skip_manifest" = files.length := by
  have haux := skipAll_aux p hch files ⟨m0, initCounts, []⟩ (fun f hf => hman f hf)
  refine ⟨runMain_ok p m0 files hread, ?_, ?_, ?_, ?_⟩
  · rw [runPure, haux]
  · rw [runPure, haux]
    simp
  · rw [runPure, haux]
    rw [getCount_foldl_bump (fun _ : WFile => "skip_manifest") "processed" files initCounts]
    have hz : ∀ a ∈ files, ¬ (fun _ : WFile => decide ("skip_manifest" = "processed")) a = true :=
      fun a _ => (by decide : ¬ decide ("skip_manifest" = "processed") = true)
    rw [List.countP_eq_zero.mpr hz]
    decide
  · rw [runPure, haux]
    rw [getCount_foldl_bump (fun _ : WFile => "skip_manifest") "skip_manifest" files initCounts]
    have hl : ∀ a ∈ files, (fun _ : WFile => decide ("skip_manifest" = "skip_manifest")) a = true :=
      fun a _ => (by decide : decide ("skip_manifest" = "skip_manifest") = true)
    rw [List.countP_eq_length.mpr hl]
    exact Nat.zero_add _

/-- C1 witness: a one-file tree whose manifest already records the file's
hash; the conclusion of `C1_rerun_unchanged_tree` holds there. -/
theorem C1_witness :
    (∀ f ∈ [goodFile "a.jpg" 5], lookupA [("Property Listing/a.jpg", "5")]
        (posixOf f.parts) = some ((wmParams false false [] []).hashFn f.content)) ∧
    ((runPure (wmParams false false [] []) [("Property Listing/a.jpg", "5")]
        [goodFile "a.jpg" 5]).manifest = [("Property Listing/a.jpg", "5")] ∧
      (runPure (wmParams false false [] []) [("Property Listing/a.jpg", "5")]
        [goodFile "a.jpg" 5]).outFiles = [goodFile "a.jpg" 5] ∧
      getCount (runPure (wmParams false false [] []) [("Property Listing/a.jpg", "5")]
        [goodFile "a.jpg" 5]).counts "processed" = 0 ∧
      getCount (runPure (wmParams false false [] []) [("Property Listing/a.jpg", "5")]
        [goodFile "a.jpg" 5]).counts "skip_manifest" = 1) :=
  ⟨by decide,
    (C1_rerun_unchanged_tree (wmParams false false [] [])
      [("Property Listing/a.jpg", "5")] [goodFile "a.jpg" 5]
      rfl (by decide) (by decide)).2⟩

/-- C2 counterexample: the claim says every per-file error — including an
unreadable image — is caught and the batch continues to the summary.  But the
`sha256_file` call at line 232 sits outside every try/except, so a file that
cannot be opened for reading raises there and aborts the whole run: with a
second healthy file still pending, the run returns an uncaught exception
instead of a summary, and nothing is tallied as `error`. -/
theorem C2_counterexample :
    runMain (wmParams false false [] []) [] [unreadableFile, goodFile "b.jpg" 1]
      = Except.error "sha256_file raised: file unreadable" := rfl

/-- C2 amended: every per-file error raised inside `process_file`'s guarded
image pipeline (corrupt image, decode failure, write failure during save) is
caught, tallied as `error`, and the batch continues on the remaining files
with the erroring file's bytes and manifest entry untouched; the run then
still ends with the printed summary provided every file was readable at
hashing time — an unreadable file instead aborts the run at `sha256_file`. -/
theorem C2_process_errors_counted (p : WParams) (m0 : List (String × String))
    (st : RunState) (f : WFile) (rest : List WFile)
    (hread : f.readOk = true)
    (hch : p.changedSet = [] ∨ f.parts ∈ p.changedSet)
    (hman : lookupA st.manifest (posixOf f.parts) ≠ some (p.hashFn f.content))
    (hrec : p.record_only = false)
    (herr : process_file p f = "error") :
    List.foldlM (mainStepE p) st (f :: rest)
      = List.foldlM (mainStepE p)
          { st with counts := bump st.counts "error", outFiles := st.outFiles ++ [f] }
          rest ∧
    (∀ files, (∀ g ∈ files, g.readOk = true) →
      runMain p m0 files = Except.ok (runPure p m0 files)) := by
  constructor
  · have h1 : ¬ (p.changedSet ≠ [] ∧ ¬ p.changedSet.contains f.parts = true) := by
      rcases hch with h | h
      · exact fun hc => hc.1 h
      · exact fun hc => hc.2 (by simpa using h)
    have h3 : ¬ p.record_only = true := by
      rw [hrec]
      simp
    have h4 : ¬ (process_file p f = "processed" ∧ ¬ p.dry_run = true) := by
      rw [herr]
      rintro ⟨hc, -⟩
      exact absurd hc (by decide)
    have hstep : mainStep p st f =
        { st with counts := bump st.counts "error", outFiles := st.outFiles ++ [f] } := by
      unfold mainStep
      simp only []
      rw [if_neg h1, if_neg hman, if_neg h3, if_neg h4, herr]
    rw [List.foldlM_cons, mainStepE_ok p st f hread, hstep]
    rfl
  · exact fun files hr => runMain_ok p m0 files hr

/-- C2 witness: a decode-failing file in mid-batch is tallied as `error` and
the fold continues on the remaining files from the bumped state. -/
theorem C2_witness :
    List.foldlM (mainStepE (wmParams false false [] []))
        ⟨[], initCounts, []⟩
        [⟨["Property Listing", "corrupt.jpg"], 3, 800, 600, true, false, true⟩,
         goodFile "b.jpg" 1]
      = List.foldlM (mainStepE (wmParams false false [] []))
          ⟨[], bump initCounts "error",
           [⟨["Property Listing", "corrupt.jpg"], 3, 800, 600, true, false, true⟩]⟩
          [goodFile "b.jpg" 1] :=
  (C2_process_errors_counted (wmParams false false [] []) []
    ⟨[], initCounts, []⟩
    ⟨["Property Listing", "corrupt.jpg"], 3, 800, 600, true, false, true⟩
    [goodFile "b.jpg" 1]
    rfl (Or.inl rfl) (by decide) rfl (by decide)).1

/-- C3 counterexample: `watermark-main.jpg` contains the token `watermark`,
yet a fresh default run classifies it `skip_project_card`, not
`skip_watermarked_name`, because `process_file` tests the card-variant
pattern — which `...main.jpg` matches — before the watermark-name tokens. -/
theorem C3_counterexample :
    is_already_watermarked (nameOf (goodFile "watermark-main.jpg" 7).parts) = true ∧
    runMain (wmParams false false [] []) [] [goodFile "watermark-main.jpg" 7]
      = Except.ok (runPure (wmParams false false [] []) [] [goodFile "watermark-main.jpg" 7]) ∧
    getCount (runPure (wmParams false false [] []) [] [goodFile "watermark-main.jpg" 7]).counts
        "skip_watermarked_name" = 0 ∧
    getCount (runPure (wmParams false false [] []) [] [goodFile "watermark-main.jpg" 7]).counts
        "skip_project_card" = 1 :=
  ⟨by decide, rfl, by decide, by decide⟩

/-- C3 amended: an image whose filename contains `watermark`, `_wm` or `logo`
(case-insensitively) is never re-encoded — its bytes survive every run
unchanged — and its tallied outcome is `skip_watermarked_name` provided no
earlier check fires first: it is not excluded by a non-empty changed-only
set, its manifest entry does not match, the run is not record-only, and it is
not classified `skip_project_card` by the catalog card set or the
card-variant filename pattern, both of which take precedence. -/
theorem C3_amended (p : WParams) (m0 : List (String × String)) (files : List WFile)
    (i : Nat) (f : WFile)
    (hnodup : (files.map (fun g => posixOf g.parts)).Nodup)
    (hread : ∀ g ∈ files, g.readOk = true)
    (hi : files[i]? = some f)
    (htok : is_already_watermarked (nameOf f.parts) = true) :
    runMain p m0 files = Except.ok (runPure p m0 files) ∧
    (runPure p m0 files).outFiles[i]? = some f ∧
    (runPure p m0 files).counts
        = files.foldl (fun c g => bump c (fileOutcome p m0 g)) initCounts ∧
    ((p.changedSet = [] ∨ f.parts ∈ p.changedSet) →
      lookupA m0 (posixOf f.parts) ≠ some (p.hashFn f.content) →
      p.record_only = false →
      p.card_images.contains (relPathParts p.rootParts f.parts) = false →
      is_project_card_variant (nameOf f.parts) = false →
      fileOutcome p m0 f = "skip_watermarked_name") := by
  have hspec := run_spec p m0 files ⟨m0, initCounts, []⟩ (fun g _ => rfl) hnodup
  have hnp : ¬ (process_file p f = "processed" ∧ ¬ p.dry_run = true) := by
    rintro ⟨hc, -⟩
    rcases process_file_token_skip p f htok with h | h
    · rw [h] at hc
      exact absurd hc (by decide)
    · rw [h] at hc
      exact absurd hc (by decide)
  refine ⟨runMain_ok p m0 files hread, ?_, ?_, ?_⟩
  · rw [runPure, hspec.1]
    simp only [List.nil_append, List.getElem?_map, hi, Option.map_some]
    simp [expectedFile_eq_self p m0 f hnp]
  · rw [runPure, hspec.2.1]
  · intro hch hman hrec hcard hvar
    rw [fileOutcome_reach p m0 f hch hman hrec]
    unfold process_file
    have hcard' : ¬ p.card_images.contains (relPathParts p.rootParts f.parts) = true := by
      rw [hcard]
      simp
    have hvar' : ¬ is_project_card_variant (nameOf f.parts) = true := by
      rw [hvar]
      simp
    rw [if_neg hcard', if_neg hvar', if_pos htok]

/-- C3 witness: `logo-pic.jpg` in a fresh default run keeps its bytes and is
tallied `skip_watermarked_name`. -/
theorem C3_witness :
    is_already_watermarked (nameOf (goodFile "logo-pic.jpg" 7).parts) = true ∧
    ((runPure (wmParams false false [] []) [] [goodFile "logo-pic.jpg" 7]).outFiles[0]?
        = some (goodFile "logo-pic.jpg" 7) ∧
      fileOutcome (wmParams false false [] []) [] (goodFile "logo-pic.jpg" 7)
        = "skip_watermarked_name") :=
  ⟨by decide,
    (C3_amended (wmParams false false [] []) [] [goodFile "logo-pic.jpg" 7] 0
      (goodFile "logo-pic.jpg" 7) (by decide) (by decide) rfl (by decide)).2.1,
    (C3_amended (wmParams false false [] []) [] [goodFile "logo-pic.jpg" 7] 0
      (goodFile "logo-pic.jpg" 7) (by decide) (by decide) rfl (by decide)).2.2.2
      (Or.inl rfl) (by decide) rfl (by decide) (by decide)⟩

/-- C4 counterexample: `main.jpg` matches the card-variant pattern, yet a run
whose manifest already records its current hash classifies it `skip_manifest`
rather than `skip_project_card`, because the manifest check in `main`
(line 233) runs before `process_file` is ever called. -/
theorem C4_counterexample :
    is_project_card_variant (nameOf (goodFile "main.jpg" 9).parts) = true ∧
    runMain (wmParams false false [] []) [("Property Listing/main.jpg", "9")]
        [goodFile "main.jpg" 9]
      = Except.ok (runPure (wmParams false false [] [])
          [("Property Listing/main.jpg", "9")] [goodFile "main.jpg" 9]) ∧
    getCount (runPure (wmParams false false [] []) [("Property Listing/main.jpg", "9")]
        [goodFile "main.jpg" 9]).counts "skip_project_card" = 0 ∧
    getCount (runPure (wmParams false false [] []) [("Property Listing/main.jpg", "9")]
        [goodFile "main.jpg" 9]).counts "skip_manifest" = 1 :=
  ⟨by decide, rfl, by decide, by decide⟩

/-- C4 amended: an image whose catalog-relative path is in the card-image set
or whose filename matches the card-variant pattern is never composited — its
bytes survive every run unchanged — and its tallied outcome is
`skip_project_card` provided the earlier loop checks do not fire first: it is
not excluded by a non-empty changed-only set, its manifest entry does not
match (that check precedes `process_file`), and the run is not record-only. -/
theorem C4_amended (p : WParams) (m0 : List (String × String)) (files : List WFile)
    (i : Nat) (f : WFile)
    (hnodup : (files.map (fun g => posixOf g.parts)).Nodup)
    (hread : ∀ g ∈ files, g.readOk = true)
    (hi : files[i]? = some f)
    (hcard : p.card_images.contains (relPathParts p.rootParts f.parts) = true ∨
      is_project_card_variant (nameOf f.parts) = true) :
    runMain p m0 files = Except.ok (runPure p m0 files) ∧
    (runPure p m0 files).outFiles[i]? = some f ∧
    (runPure p m0 files).counts
        = files.foldl (fun c g => bump c (fileOutcome p m0 g)) initCounts ∧
    ((p.changedSet = [] ∨ f.parts ∈ p.changedSet) →
      lookupA m0 (posixOf f.parts) ≠ some (p.hashFn f.content) →
      p.record_only = false →
      fileOutcome p m0 f = "skip_project_card") := by
  have hspec := run_spec p m0 files ⟨m0, initCounts, []⟩ (fun g _ => rfl) hnodup
  have hnp : ¬ (process_file p f = "processed" ∧ ¬ p.dry_run = true) := by
    rintro ⟨hc, -⟩
    rw [process_file_card_skip p f hcard] at hc
    exact absurd hc (by decide)
  refine ⟨runMain_ok p m0 files hread, ?_, ?_, ?_⟩
  · rw [runPure, hspec.1]
    simp only [List.nil_append, List.getElem?_map, hi, Option.map_some]
    simp [expectedFile_eq_self p m0 f hnp]
  · rw [runPure, hspec.2.1]
  · intro hch hman hrec
    rw [fileOutcome_reach p m0 f hch hman hrec]
    exact process_file_card_skip p f hcard

/-- C4 witness: `main-640w.webp` in a fresh default run keeps its bytes and
is tallied `skip_project_card`. -/
theorem C4_witness :
    is_project_card_variant (nameOf (goodFile "main-640w.webp" 4).parts) = true ∧
    ((runPure (wmParams false false [] []) [] [goodFile "main-640w.webp" 4]).outFiles[0]?
        = some (goodFile "main-640w.webp" 4) ∧
      fileOutcome (wmParams false false [] []) [] (goodFile "main-640w.webp" 4)
        = "skip_project_card") :=
  ⟨by decide,
    (C4_amended (wmParams false false [] []) [] [goodFile "main-640w.webp" 4] 0
      (goodFile "main-640w.webp" 4) (by decide) (by decide) rfl
      (Or.inr (by decide))).2.1,
    (C4_amended (wmParams false false [] []) [] [goodFile "main-640w.webp" 4] 0
      (goodFile "main-640w.webp" 4) (by decide) (by decide) rfl
      (Or.inr (by decide))).2.2.2 (Or.inl rfl) (by decide) rfl⟩

/-- C8 counterexample: the claim says that in changed-only mode every image
the status command does not report is skipped as `skipped_unchanged`.  But
when git runs fine and reports nothing (no change under the root), the
computed set is empty, `if changed_set and ...` is falsy, and the restriction
silently disappears: the unreported image is processed, not skipped. -/
theorem C8_counterexample :
    git_changed_images true [] ["Property Listing"] [goodFile "a.jpg" 5] = [] ∧
    runMain (wmParams true false
        (git_changed_images true [] ["Property Listing"] [goodFile "a.jpg" 5]) [])
        [] [goodFile "a.jpg" 5]
      = Except.ok (runPure (wmParams true false
          (git_changed_images true [] ["Property Listing"] [goodFile "a.jpg" 5]) [])
          [] [goodFile "a.jpg" 5]) ∧
    getCount (runPure (wmParams true false
        (git_changed_images true [] ["Property Listing"] [goodFile "a.jpg" 5]) [])
        [] [goodFile "a.jpg" 5]).counts "processed" = 1 ∧
    getCount (runPure (wmParams true false
        (git_changed_images true [] ["Property Listing"] [goodFile "a.jpg" 5]) [])
        [] [goodFile "a.jpg" 5]).counts "skipped_unchanged" = 0 :=
  ⟨rfl, rfl, by decide, by decide⟩

/-- C8 amended: with the changed-only flag, when the computed changed-set is
non-empty the run processes exactly its members (every other image is tallied
`skipped_unchanged`, every member goes through the unrestricted pipeline);
when the status command is unavailable — or reports nothing under the root —
the computed set is empty and the restriction is dropped, so every supported
image is considered as in an unrestricted run. -/
theorem C8_amended (p : WParams) (m0 : List (String × String)) (f : WFile)
    (entries : List String) (rootParts : List String) (fs : List WFile) :
    git_changed_images false entries rootParts fs = [] ∧
    (p.changedSet ≠ [] → p.changedSet.contains f.parts = false →
      fileOutcome p m0 f = "skipped_unchanged") ∧
    (p.changedSet ≠ [] → p.changedSet.contains f.parts = true →
      fileOutcome p m0 f = fileOutcome { p with changedSet := [] } m0 f) ∧
    (p.changedSet = [] →
      fileOutcome p m0 f = fileOutcome { p with changedSet := [] } m0 f) ∧
    (∀ files, (files.map (fun g => posixOf g.parts)).Nodup →
      (∀ g ∈ files, g.readOk = true) →
      runMain p m0 files = Except.ok (runPure p m0 files) ∧
      (runPure p m0 files).counts
        = files.foldl (fun c g => bump c (fileOutcome p m0 g)) initCounts) := by
  refine ⟨rfl, ?_, ?_, ?_, ?_⟩
  · intro h1 h2
    have hc : p.changedSet ≠ [] ∧ ¬ p.changedSet.contains f.parts = true :=
      ⟨h1, by simpa using h2⟩
    unfold fileOutcome
    rw [if_pos hc]
  · intro h1 h2
    have hn : ¬ (p.changedSet ≠ [] ∧ ¬ p.changedSet.contains f.parts = true) :=
      fun hc => hc.2 h2
    have hn' : ¬ (({ p with changedSet := ([] : List (List String)) }).changedSet ≠ []
        ∧ ¬ ({ p with changedSet := ([] : List (List String)) }).changedSet.contains
              f.parts = true) :=
      fun hc => hc.1 rfl
    unfold fileOutcome
    rw [if_neg hn, if_neg hn']
    rfl
  · intro h1
    have hn : ¬ (p.changedSet ≠ [] ∧ ¬ p.changedSet.contains f.parts = true) :=
      fun hc => hc.1 h1
    have hn' : ¬ (({ p with changedSet := ([] : List (List String)) }).changedSet ≠ []
        ∧ ¬ ({ p with changedSet := ([] : List (List String)) }).changedSet.contains
              f.parts = true) :=
      fun hc => hc.1 rfl
    unfold fileOutcome
    rw [if_neg hn, if_neg hn']
    rfl
  · intro files hnodup hread
    exact ⟨runMain_ok p m0 files hread,
      (run_spec p m0 files ⟨m0, initCounts, []⟩ (fun g _ => rfl) hnodup).2.1⟩

/-- C8 witness: an unavailable status command yields the empty set, and a
file outside a non-empty changed-set is tallied `skipped_unchanged`. -/
theorem C8_witness :
    git_changed_images false ["?? x.jpg"] ["Property Listing"] [] = [] ∧
    fileOutcome (wmParams false false [["Property Listing", "other.jpg"]] []) []
      (goodFile "a.jpg" 5) = "skipped_unchanged" :=
  ⟨(C8_amended (wmParams false false [] []) [] (goodFile "a.jpg" 5)
      ["?? x.jpg"] ["Property Listing"] []).1,
    (C8_amended (wmParams false false [["Property Listing", "other.jpg"]] []) []
      (goodFile "a.jpg" 5) [] ["Property Listing"] []).2.1 (by decide) (by decide)⟩

/-- C9 counterexample: the claim says manifest entries change only after a
successful non-dry-run processing.  But in record-only mode a file classified
`skip_manifest` (never processed, `processed` count stays 0) still gets its
current hash written into the persisted manifest. -/
theorem C9_counterexample :
    fileOutcome (wmParams false true [] []) [] (goodFile "a.jpg" 5) = "skip_manifest" ∧
    lookupA ([] : List (String × String)) (posixOf (goodFile "a.jpg" 5).parts) = none ∧
    lookupA (persistedManifest (wmParams false true [] []) [] [goodFile "a.jpg" 5])
        (posixOf (goodFile "a.jpg" 5).parts) = some "5" ∧
    getCount (runPure (wmParams false true [] []) [] [goodFile "a.jpg" 5]).counts
        "processed" = 0 :=
  ⟨by decide, rfl, by decide, by decide⟩

/-- C9 amended: a dry run never changes the persisted manifest; outside
record-only mode, a file classified as anything other than `processed` keeps
its manifest entry exactly; and in record-only (non-dry) mode every selected
file's current hash is recorded even though nothing is processed. -/
theorem C9_amended (p : WParams) (m0 : List (String × String)) (files : List WFile)
    (hnodup : (files.map (fun g => posixOf g.parts)).Nodup)
    (hread : ∀ g ∈ files, g.readOk = true) :
    (p.dry_run = true → persistedManifest p m0 files = m0) ∧
    (p.record_only = false → ∀ f ∈ files, fileOutcome p m0 f ≠ "processed" →
      lookupA (persistedManifest p m0 files) (posixOf f.parts)
        = lookupA m0 (posixOf f.parts)) ∧
    (p.record_only = true → p.dry_run = false → ∀ f ∈ files,
      fileOutcome p m0 f ≠ "skipped_unchanged" →
      lookupA (persistedManifest p m0 files) (posixOf f.parts)
        = some (p.hashFn f.content)) := by
  have hrm := runMain_ok p m0 files hread
  have hspec := run_spec p m0 files ⟨m0, initCounts, []⟩ (fun g _ => rfl) hnodup
  have hpm : persistedManifest p m0 files
      = if p.dry_run then m0 else (runPure p m0 files).manifest := by
    unfold persistedManifest
    rw [hrm]
  refine ⟨?_, ?_, ?_⟩
  · intro hd
    rw [hpm, if_pos hd]
  · intro hrec f hf hout
    rw [hpm]
    by_cases hd : p.dry_run = true
    · rw [if_pos hd]
    · rw [if_neg hd, runPure, hspec.2.2.2 f hf]
      exact expectedEntry_unchanged p m0 f hrec hout
  · intro hrec hd f hf hns
    rw [hpm, if_neg (by rw [hd]; simp), runPure, hspec.2.2.2 f hf]
    exact expectedEntry_record p m0 f hrec hns

/-- C9 witness: the record-only branch of `C9_amended` at a concrete input:
the selected file's hash is recorded without processing. -/
theorem C9_witness :
    lookupA (persistedManifest (wmParams false true [] []) [] [goodFile "a.jpg" 5])
        (posixOf (goodFile "a.jpg" 5).parts)
      = some ((wmParams false true [] []).hashFn (goodFile "a.jpg" 5).content) :=
  (C9_amended (wmParams false true [] []) [] [goodFile "a.jpg" 5]
      (by decide) (by decide)).2.2 rfl rfl (goodFile "a.jpg" 5)
      (by simp) (by decide)

theorem lexLe_total : ∀ (a b : List Char), (lexLe a b || lexLe b a) = true := by
  intro a
  induction a with
  | nil => intro b; simp [lexLe]
  | cons x xs ih =>
    intro b
    match b with
    | [] => simp [lexLe]
    | y :: ys =>
      simp only [lexLe]
      by_cases hxy : x < y
      · simp [hxy]
      · by_cases hyx : y < x
        · simp [hxy, hyx]
        · simp only [if_neg hxy, if_neg hyx]
          simpa using ih ys

theorem lexLe_trans : ∀ (a b c : List Char),
    lexLe a b = true → lexLe b c = true → lexLe a c = true := by
  intro a
  induction a with
  | nil => intro b c _ _; rfl
  | cons x xs ih =>
    intro b c h1 h2
    match b, c with
    | [], _ => simp [lexLe] at h1
    | _ :: _, [] => simp [lexLe] at h2
    | y :: ys, z :: zs =>
      simp only [lexLe] at h1 h2 ⊢
      by_cases hxy : x < y
      · by_cases hyz : y < z
        · rw [if_pos (lt_trans hxy hyz)]
        · by_cases hzy : z < y
          · rw [if_neg hyz, if_pos hzy] at h2
            exact absurd h2 (by simp)
          · have hyz' : y = z := le_antisymm (not_lt.mp hzy) (not_lt.mp hyz)
            rw [if_pos (hyz' ▸ hxy)]
      · by_cases hyx : y < x
        · rw [if_neg hxy, if_pos hyx] at h1
          exact absurd h1 (by simp)
        · have hxy' : x = y := le_antisymm (not_lt.mp hyx) (not_lt.mp hxy)
          subst hxy'
          rw [if_neg hxy, if_neg hxy] at h1
          by_cases hyz : x < z
          · rw [if_pos hyz]
          · by_cases hzy : z < x
            · rw [if_neg hyz, if_pos hzy] at h2
              exact absurd h2 (by simp)
            · rw [if_neg hyz, if_neg hzy] at h2
              rw [if_neg hyz, if_neg hzy]
              exact ih ys zs h1 h2

theorem insSorted_perm (le : List String → List String → Bool) (x : List String) :
    ∀ l, (insSorted le x l).Perm (x :: l) := by
  intro l
  induction l with
  | nil => exact List.Perm.refl _
  | cons y ys ih =>
    unfold insSorted
    split
    · exact List.Perm.refl _
    · exact (ih.cons y).trans (List.Perm.swap x y ys)

theorem sortByLower_perm (l : List (List String)) : (sortByLower l).Perm l := by
  induction l with
  | nil => exact List.Perm.refl _
  | cons x xs ih =>
    unfold sortByLower
    simp only [List.foldr_cons]
    exact (insSorted_perm _ x _).trans (ih.cons x)

theorem insSorted_pairwise (le : List String → List String → Bool)
    (htrans : ∀ a b c, le a b = true → le b c = true → le a c = true)
    (htot : ∀ a b, (le a b || le b a) = true) (x : List String) :
    ∀ l, List.Pairwise (fun a b => le a b = true) l →
      List.Pairwise (fun a b => le a b = true) (insSorted le x l) := by
  intro l
  induction l with
  | nil =>
    intro _
    exact List.Pairwise.cons (by simp) List.Pairwise.nil
  | cons y ys ih =>
    intro hp
    have hp' := List.pairwise_cons.mp hp
    unfold insSorted
    split
    · next hxy =>
      apply List.pairwise_cons.mpr
      refine ⟨?_, hp⟩
      intro z hz
      rcases List.mem_cons.mp hz with h | h
      · exact h ▸ hxy
      · exact htrans x y z hxy (hp'.1 z h)
    · next hxy =>
      have hyx : le y x = true := by
        rcases (by simpa using htot x y : le x y = true ∨ le y x = true) with h | h
        · exact absurd h hxy
        · exact h
      apply List.pairwise_cons.mpr
      refine ⟨?_, ih hp'.2⟩
      intro z hz
      rcases List.mem_cons.mp ((insSorted_perm le x ys).mem_iff.mp hz) with h | h
      · exact h ▸ hyx
      · exact hp'.1 z h

theorem sortByLower_pairwise (l : List (List String)) :
    List.Pairwise (fun a b =>
      lexLe (lowerPosixChars a) (lowerPosixChars b) = true) (sortByLower l) := by
  induction l with
  | nil => exact List.Pairwise.nil
  | cons x xs ih =>
    unfold sortByLower at ih ⊢
    simp only [List.foldr_cons]
    exact insSorted_pairwise (fun a b => lexLe (lowerPosixChars a) (lowerPosixChars b))
      (fun a b c hab hbc => lexLe_trans _ _ _ hab hbc)
      (fun a b => lexLe_total _ _) x _ ih

theorem mem_setA {β : Type} (sel : List (String × β)) (k : String) (v : β) :
    ∀ e ∈ setA sel k v, e = (k, v) ∨ e ∈ sel := by
  induction sel with
  | nil =>
    intro e he
    simp [setA] at he
    exact Or.inl he
  | cons hd t ih =>
    intro e he
    obtain ⟨k0, v0⟩ := hd
    by_cases hk : k0 = k
    · subst hk
      simp only [setA, if_pos rfl] at he
      rcases List.mem_cons.mp he with h | h
      · exact Or.inl (by simpa using h)
      · exact Or.inr (List.mem_cons.mpr (Or.inr h))
    · simp only [setA, if_neg hk] at he
      rcases List.mem_cons.mp he with h | h
      · exact Or.inr (List.mem_cons.mpr (Or.inl h))
      · rcases ih e h with h2 | h2
        · exact Or.inl h2
        · exact Or.inr (List.mem_cons.mpr (Or.inr h2))

theorem map_fst_setA_of_mem {β : Type} (sel : List (String × β)) (k : String) (v : β)
    (h : lookupA sel k ≠ none) :
    (setA sel k v).map Prod.fst = sel.map Prod.fst := by
  induction sel with
  | nil => simp [lookupA] at h
  | cons hd t ih =>
    obtain ⟨k0, v0⟩ := hd
    by_cases hk : k0 = k
    · subst hk
      simp [setA]
    · simp only [lookupA, if_neg hk] at h
      simp [setA, if_neg hk, ih h]

theorem lookupA_none_of_not_mem {β : Type} (sel : List (String × β)) (k : String)
    (h : k ∉ sel.map Prod.fst) : lookupA sel k = none := by
  induction sel with
  | nil => rfl
  | cons hd t ih =>
    obtain ⟨k0, v0⟩ := hd
    have hk : ¬ k0 = k := fun hh => h (by simp [hh])
    simp only [lookupA, if_neg hk]
    exact ih (fun hh => h (by simp [hh]))

theorem mem_keys_of_lookupA {β : Type} (sel : List (String × β)) (k : String) (v : β)
    (h : lookupA sel k = some v) : k ∈ sel.map Prod.fst := by
  induction sel with
  | nil => simp [lookupA] at h
  | cons hd t ih =>
    obtain ⟨k0, v0⟩ := hd
    by_cases hk : k0 = k
    · simp [hk]
    · simp only [lookupA, if_neg hk] at h
      simp [ih h]

theorem lookupA_of_mem_nodup {β : Type} (sel : List (String × β)) (k : String) (v : β)
    (hmem : (k, v) ∈ sel) (hnd : (sel.map Prod.fst).Nodup) : lookupA sel k = some v := by
  induction sel with
  | nil => simp at hmem
  | cons hd t ih =>
    obtain ⟨k0, v0⟩ := hd
    have hnd' : k0 ∉ t.map Prod.fst ∧ (t.map Prod.fst).Nodup :=
      List.nodup_cons.mp (by simpa using hnd : (k0 :: t.map Prod.fst).Nodup)
    rcases List.mem_cons.mp hmem with h | h
    · have hk : k0 = k := (congrArg Prod.fst h).symm
      have hv : v0 = v := (congrArg Prod.snd h).symm
      rw [lookupA, if_pos hk, hv]
    · have hkmem : k ∈ t.map Prod.fst := List.mem_map.mpr ⟨(k, v), h, rfl⟩
      have hk : ¬ k0 = k := fun hh => hnd'.1 (hh ▸ hkmem)
      rw [lookupA, if_neg hk]
      exact ih h hnd'.2

theorem lookupA_append_left {β : Type} (sel rest : List (String × β)) (k : String)
    (v : β) (h : lookupA sel k = some v) : lookupA (sel ++ rest) k = some v := by
  induction sel with
  | nil => simp [lookupA] at h
  | cons hd t ih =>
    obtain ⟨k0, v0⟩ := hd
    by_cases hk : k0 = k
    · simp only [lookupA, if_pos hk] at h
      simp [lookupA, if_pos hk, h]
    · simp only [lookupA, if_neg hk] at h
      simp only [List.cons_append, lookupA, if_neg hk]
      exact ih h

theorem lookupA_append_single_none {β : Type} (sel : List (String × β))
    (k1 k : String) (v : β) (h : lookupA sel k = none) :
    lookupA (sel ++ [(k1, v)]) k = if k1 = k then some v else none := by
  induction sel with
  | nil => rfl
  | cons hd t ih =>
    obtain ⟨k0, v0⟩ := hd
    by_cases hk : k0 = k
    · simp only [lookupA, if_pos hk] at h
      exact absurd h (by simp)
    · simp only [lookupA, if_neg hk] at h
      simp only [List.cons_append, lookupA, if_neg hk]
      exact ih h

theorem lookupA_isSome_of_mem_keys {β : Type} (sel : List (String × β)) (k : String)
    (h : k ∈ sel.map Prod.fst) : lookupA sel k ≠ none := by
  induction sel with
  | nil => simp at h
  | cons hd t ih =>
    obtain ⟨k0, v0⟩ := hd
    by_cases hk : k0 = k
    · simp [lookupA, if_pos hk]
    · simp only [lookupA, if_neg hk]
      apply ih
      rcases (by simpa using h : k = k0 ∨ ∃ x, (k, x) ∈ t) with h1 | h1
      · exact absurd h1.symm hk
      · obtain ⟨x, hx⟩ := h1
        exact List.mem_map.mpr ⟨(k, x), hx, rfl⟩

theorem dedupeStep_eq_insert (sel : List (String × List String)) (p : List String)
    (hl : lookupA sel (dedupeKey p) = none) :
    dedupeStep sel p = sel ++ [(dedupeKey p, p)] := by
  unfold dedupeStep
  rw [hl]

theorem dedupeStep_eq_replace (sel : List (String × List String)) (p cur : List String)
    (hl : lookupA sel (dedupeKey p) = some cur) (hr : rankOf p < rankOf cur) :
    dedupeStep sel p = setA sel (dedupeKey p) p := by
  unfold dedupeStep
  rw [hl]
  simp only [if_pos hr]

theorem dedupeStep_eq_keep (sel : List (String × List String)) (p cur : List String)
    (hl : lookupA sel (dedupeKey p) = some cur) (hr : ¬ rankOf p < rankOf cur) :
    dedupeStep sel p = sel := by
  unfold dedupeStep
  rw [hl]
  simp only [if_neg hr]

theorem dedupeStep_mem (sel : List (String × List String)) (p : List String) :
    ∀ e ∈ dedupeStep sel p, e = (dedupeKey p, p) ∨ e ∈ sel := by
  intro e he
  cases hl : lookupA sel (dedupeKey p) with
  | none =>
    rw [dedupeStep_eq_insert sel p hl] at he
    rcases List.mem_append.mp he with h | h
    · exact Or.inr h
    · exact Or.inl (by simpa using h)
  | some cur =>
    by_cases hr : rankOf p < rankOf cur
    · rw [dedupeStep_eq_replace sel p cur hl hr] at he
      exact mem_setA sel (dedupeKey p) p e he
    · rw [dedupeStep_eq_keep sel p cur hl hr] at he
      exact Or.inr he

theorem dedupeStep_keys_subset (sel : List (String × List String)) (p : List String)
    (x : String) (hx : x ∈ sel.map Prod.fst) :
    x ∈ (dedupeStep sel p).map Prod.fst := by
  cases hl : lookupA sel (dedupeKey p) with
  | none =>
    rw [dedupeStep_eq_insert sel p hl]
    simp [hx]
  | some cur =>
    by_cases hr : rankOf p < rankOf cur
    · rw [dedupeStep_eq_replace sel p cur hl hr]
      rw [map_fst_setA_of_mem sel _ p (by rw [hl]; simp)]
      exact hx
    · rw [dedupeStep_eq_keep sel p cur hl hr]
      exact hx

theorem dedupeStep_key_mem (sel : List (String × List String)) (p : List String) :
    dedupeKey p ∈ (dedupeStep sel p).map Prod.fst := by
  cases hl : lookupA sel (dedupeKey p) with
  | none =>
    rw [dedupeStep_eq_insert sel p hl]
    simp
  | some cur =>
    by_cases hr : rankOf p < rankOf cur
    · rw [dedupeStep_eq_replace sel p cur hl hr]
      rw [map_fst_setA_of_mem sel _ p (by rw [hl]; simp)]
      exact mem_keys_of_lookupA sel _ cur hl
    · rw [dedupeStep_eq_keep sel p cur hl hr]
      exact mem_keys_of_lookupA sel _ cur hl

theorem dedupeStep_keys_nodup (sel : List (String × List String)) (p : List String)
    (hnd : (sel.map Prod.fst).Nodup) : ((dedupeStep sel p).map Prod.fst).Nodup := by
  cases hl : lookupA sel (dedupeKey p) with
  | none =>
    have hfresh : dedupeKey p ∉ sel.map Prod.fst :=
      fun hmem => lookupA_isSome_of_mem_keys sel _ hmem hl
    rw [dedupeStep_eq_insert sel p hl]
    simp only [List.map_append]
    rw [List.nodup_append]
    refine ⟨hnd, by simp, ?_⟩
    simp only [List.map_cons, List.map_nil]
    intro x hx
    simp only [List.mem_singleton]
    intro hh
    exact hfresh (hh ▸ hx)
  | some cur =>
    by_cases hr : rankOf p < rankOf cur
    · rw [dedupeStep_eq_replace sel p cur hl hr]
      rw [map_fst_setA_of_mem sel _ p (by rw [hl]; simp)]
      exact hnd
    · rw [dedupeStep_eq_keep sel p cur hl hr]
      exact hnd

theorem dedupe_fold_mem : ∀ (l : List (List String)) (sel : List (String × List String)),
    ∀ e ∈ List.foldl dedupeStep sel l, e ∈ sel ∨ (e.2 ∈ l ∧ e.1 = dedupeKey e.2) := by
  intro l
  induction l with
  | nil => intro sel e he; exact Or.inl he
  | cons p t ih =>
    intro sel e he
    rw [List.foldl_cons] at he
    rcases ih (dedupeStep sel p) e he with h | h
    · rcases dedupeStep_mem sel p e h with h2 | h2
      · exact Or.inr ⟨by simp [h2], by simp [h2]⟩
      · exact Or.inl h2
    · exact Or.inr ⟨List.mem_cons.mpr (Or.inr h.1), h.2⟩

theorem dedupe_fold_keys_subset : ∀ (l : List (List String))
    (sel : List (String × List String)) (x : String), x ∈ sel.map Prod.fst →
    x ∈ (List.foldl dedupeStep sel l).map Prod.fst := by
  intro l
  induction l with
  | nil => intro sel x hx; exact hx
  | cons p t ih =>
    intro sel x hx
    rw [List.foldl_cons]
    exact ih _ x (dedupeStep_keys_subset sel p x hx)

theorem dedupe_fold_keys_nodup : ∀ (l : List (List String))
    (sel : List (String × List String)), (sel.map Prod.fst).Nodup →
    ((List.foldl dedupeStep sel l).map Prod.fst).Nodup := by
  intro l
  induction l with
  | nil => intro sel h; exact h
  | cons p t ih =>
    intro sel h
    rw [List.foldl_cons]
    exact ih _ (dedupeStep_keys_nodup sel p h)

theorem dedupe_fold_keys_complete : ∀ (l : List (List String))
    (sel : List (String × List String)), ∀ p ∈ l,
    dedupeKey p ∈ (List.foldl dedupeStep sel l).map Prod.fst := by
  intro l
  induction l with
  | nil => intro sel p hp; simp at hp
  | cons q t ih =>
    intro sel p hp
    rw [List.foldl_cons]
    rcases List.mem_cons.mp hp with h | h
    · subst h
      exact dedupe_fold_keys_subset t _ _ (dedupeStep_key_mem sel p)
    · exact ih _ p h

theorem dedupeStep_rank_mono (sel : List (String × List String)) (p : List String)
    (k : String) (q : List String) (hl : lookupA sel k = some q) :
    ∃ q2, lookupA (dedupeStep sel p) k = some q2 ∧ rankOf q2 ≤ rankOf q := by
  by_cases hk : dedupeKey p = k
  · subst hk
    by_cases hr : rankOf p < rankOf q
    · rw [dedupeStep_eq_replace sel p q hl hr]
      exact ⟨p, lookupA_setA_self sel _ p, le_of_lt hr⟩
    · rw [dedupeStep_eq_keep sel p q hl hr]
      exact ⟨q, hl, le_refl _⟩
  · cases hl2 : lookupA sel (dedupeKey p) with
    | none =>
      rw [dedupeStep_eq_insert sel p hl2]
      exact ⟨q, lookupA_append_left sel _ k q hl, le_refl _⟩
    | some cur =>
      by_cases hr : rankOf p < rankOf cur
      · rw [dedupeStep_eq_replace sel p cur hl2 hr]
        refine ⟨q, ?_, le_refl _⟩
        rw [lookupA_setA_ne sel (dedupeKey p) k p (fun hh => hk hh.symm)]
        exact hl
      · rw [dedupeStep_eq_keep sel p cur hl2 hr]
        exact ⟨q, hl, le_refl _⟩

theorem dedupe_fold_rank_mono : ∀ (l : List (List String))
    (sel : List (String × List String)) (k : String) (q : List String),
    lookupA sel k = some q →
    ∃ q2, lookupA (List.foldl dedupeStep sel l) k = some q2 ∧ rankOf q2 ≤ rankOf q := by
  intro l
  induction l with
  | nil => intro sel k q hl; exact ⟨q, hl, le_refl _⟩
  | cons p t ih =>
    intro sel k q hl
    obtain ⟨q1, hq1, hr1⟩ := dedupeStep_rank_mono sel p k q hl
    obtain ⟨q2, hq2, hr2⟩ := ih _ k q1 hq1
    rw [List.foldl_cons]
    exact ⟨q2, hq2, le_trans hr2 hr1⟩

theorem dedupeStep_self_rank (sel : List (String × List String)) (p : List String) :
    ∃ q, lookupA (dedupeStep sel p) (dedupeKey p) = some q ∧ rankOf q ≤ rankOf p := by
  cases hl : lookupA sel (dedupeKey p) with
  | none =>
    rw [dedupeStep_eq_insert sel p hl]
    refine ⟨p, ?_, le_refl _⟩
    rw [lookupA_append_single_none sel _ _ p hl]
    simp
  | some cur =>
    by_cases hr : rankOf p < rankOf cur
    · rw [dedupeStep_eq_replace sel p cur hl hr]
      exact ⟨p, lookupA_setA_self sel _ p, le_refl _⟩
    · rw [dedupeStep_eq_keep sel p cur hl hr]
      exact ⟨cur, hl, not_lt.mp hr⟩

theorem dedupe_fold_min : ∀ (l : List (List String))
    (sel : List (String × List String)), ∀ p ∈ l, ∀ q,
    lookupA (List.foldl dedupeStep sel l) (dedupeKey p) = some q →
    rankOf q ≤ rankOf p := by
  intro l
  induction l with
  | nil => intro sel p hp; simp at hp
  | cons q0 t ih =>
    intro sel p hp q hq
    rw [List.foldl_cons] at hq
    rcases List.mem_cons.mp hp with h | h
    · subst h
      obtain ⟨q1, hq1, hr1⟩ := dedupeStep_self_rank sel p
      obtain ⟨q2, hq2, hr2⟩ := dedupe_fold_rank_mono t _ _ q1 hq1
      have hqq : q = q2 := (Option.some.inj (hq2.symm.trans hq)).symm
      rw [hqq]
      exact le_trans hr2 hr1
    · exact ih _ p h q hq

theorem lookupA_append_single_none_ne {β : Type} (sel : List (String × β))
    (k1 k : String) (v : β) (h : lookupA sel k = none) (hk : k1 ≠ k) :
    lookupA (sel ++ [(k1, v)]) k = none := by
  rw [lookupA_append_single_none sel k1 k v h, if_neg hk]

theorem dedupe_fold_values_fresh : ∀ (l : List (List String))
    (sel : List (String × List String)),
    (∀ p ∈ l, lookupA sel (dedupeKey p) = none) →
    (l.map dedupeKey).Nodup →
    (List.foldl dedupeStep sel l).map Prod.snd = sel.map Prod.snd ++ l := by
  intro l
  induction l with
  | nil => intro sel _ _; simp
  | cons p t ih =>
    intro sel hfresh hnd
    have hnd' : (∀ x ∈ t, ¬ dedupeKey x = dedupeKey p) ∧ (t.map dedupeKey).Nodup := by
      simpa using hnd
    rw [List.foldl_cons, dedupeStep_eq_insert sel p (hfresh p (by simp))]
    rw [ih (sel ++ [(dedupeKey p, p)])
      (fun q hq => lookupA_append_single_none_ne sel _ _ p
        (hfresh q (by simp [hq])) (fun hh => hnd'.1 q hq hh.symm))
      hnd'.2]
    simp

theorem dedupe_perm (l : List (List String)) (hnd : (l.map dedupeKey).Nodup) :
    (dedupe_prefer l).Perm l := by
  unfold dedupe_prefer
  have hv : (List.foldl dedupeStep [] l).map Prod.snd = l := by
    simpa using dedupe_fold_values_fresh l [] (fun p _ => rfl) hnd
  exact (sortByLower_perm _).trans (by rw [hv])

/-- C5: for a catalog entry whose name is mapped and whose mapped folder
exists, a synchronizer run replaces all four asset arrays with the freshly
scanned lists — the new arrays do not depend on the old ones, so an empty
scan result overwrites a non-empty array — while the name, the main image
and every other field of the entry are unchanged. -/
theorem C5_full_replacement (fs : SyncFS) (root : List String)
    (catalog : List Project) (dry : Bool) (i : Nat) (pr : Project) (fname : String)
    (hi : catalog[i]? = some pr)
    (hmap : lookupA PROJECT_FOLDER_MAP pr.name = some fname)
    (hex : pExists fs (root ++ [fname]) = true) :
    (syncRun fs root catalog dry).projects[i]?
      = some { pr with
          images := ((list_top_level_images fs (root ++ [fname])).map urlize).filter
            (fun e => e ≠ pr.image),
          floorPlans := (list_images fs (floorDirOf fs (root ++ [fname]))).map urlize,
          facilities := (list_images fs ((root ++ [fname]) ++ ["Facility"])).map urlize,
          unitLayouts :=
            (list_images fs ((root ++ [fname]) ++ ["Unit Layout"])).map urlize } := by
  have hsp : syncProject fs root pr = { pr with
      images := ((list_top_level_images fs (root ++ [fname])).map urlize).filter
        (fun e => e ≠ pr.image),
      floorPlans := (list_images fs (floorDirOf fs (root ++ [fname]))).map urlize,
      facilities := (list_images fs ((root ++ [fname]) ++ ["Facility"])).map urlize,
      unitLayouts :=
        (list_images fs ((root ++ [fname]) ++ ["Unit Layout"])).map urlize } := by
    unfold syncProject
    rw [hmap]
    simp [hex, floorDirOf]
  show (catalog.map (syncProject fs root))[i]? = _
  rw [List.getElem?_map, hi]
  show some (syncProject fs root pr) = _
  rw [hsp]

/-- C5 witness: the `Le Conde` entry with stale non-empty arrays mapped onto
a folder holding three gallery images and none of the three subfolders; all
four arrays are replaced, `facilities` in particular by the empty list. -/
theorem C5_witness :
    lookupA PROJECT_FOLDER_MAP prLeConde.name = some "Le Conde" ∧
    prLeConde.facilities = ["./stale-fac.jpg"] ∧
    (list_images fsLeConde ((["Property Listing"] ++ ["Le Conde"]) ++ ["Facility"])).map
        urlize = [] ∧
    (syncRun fsLeConde ["Property Listing"] [prLeConde] true).projects[0]?
      = some { prLeConde with
          images := ((list_top_level_images fsLeConde
              (["Property Listing"] ++ ["Le Conde"])).map urlize).filter
            (fun e => e ≠ prLeConde.image),
          floorPlans := (list_images fsLeConde
              (floorDirOf fsLeConde (["Property Listing"] ++ ["Le Conde"]))).map urlize,
          facilities := (list_images fsLeConde
              ((["Property Listing"] ++ ["Le Conde"]) ++ ["Facility"])).map urlize,
          unitLayouts := (list_images fsLeConde
              ((["Property Listing"] ++ ["Le Conde"]) ++ ["Unit Layout"])).map urlize } :=
  ⟨by decide, by decide, by decide,
    C5_full_replacement fsLeConde ["Property Listing"] [prLeConde] true 0 prLeConde
      "Le Conde" rfl (by decide) (by decide)⟩

/-- C7 counterexample: the claim says a catalog parse failure never aborts a
run in either script, but the synchronizer's `json.loads` at line 80 has no
exception handler: an unparsable catalog raises and the run aborts before
touching any entry. -/
theorem C7_counterexample :
    syncMainEntry none fsLeConde ["Property Listing"] false
      = Except.error "json.loads raised: invalid catalog JSON" := rfl

/-- C7 amended: in the watermarker, a missing, unparsable or non-dict
manifest loads as the empty mapping, a missing or unparsable catalog loads as
the empty card-image set, and the run then proceeds exactly as with empty
defaults; in the synchronizer, however, a catalog parse failure raises
uncaught and aborts the run. -/
theorem C7_parse_failure_handling :
    (∀ e : Bool, load_manifest e none = []) ∧
    (∀ (e : Bool) (xs : List Json), load_manifest e (some (Json.arr xs)) = []) ∧
    (∀ pj : Option Json, load_manifest false pj = []) ∧
    (∀ e : Bool, load_project_card_images e none = []) ∧
    (∀ pj : Option Json, load_project_card_images false pj = []) ∧
    (∀ (p : WParams) (files : List WFile),
      runMain { p with card_images := load_project_card_images true none }
          (load_manifest true none) files
        = runMain { p with card_images := [] } [] files) ∧
    (∀ (fs : SyncFS) (root : List String) (d : Bool),
      syncMainEntry none fs root d
        = Except.error "json.loads raised: invalid catalog JSON") := by
  refine ⟨?_, ?_, ?_, ?_, ?_, ?_, ?_⟩
  · intro e
    cases e <;> rfl
  · intro e xs
    cases e <;> rfl
  · intro pj
    rfl
  · intro e
    cases e <;> rfl
  · intro pj
    rfl
  · intro p files
    rfl
  · intro fs root d
    rfl

/-- C6: a catalog entry mapped to an existing folder whose direct children
are exactly three supported images with pairwise distinct dedupe keys, with
exactly one child's URL-escaped path equal to the entry's main image, yields
a rebuilt `images` array of length 2 that does not contain the main image
(dry-run and apply mode share this computation). -/
theorem C6_gallery_excludes_main (fs : SyncFS) (root : List String)
    (pr : Project) (fname : String) (a b c : List String)
    (hmap : lookupA PROJECT_FOLDER_MAP pr.name = some fname)
    (hex : pExists fs (root ++ [fname]) = true)
    (hdir : isDirFS fs (root ++ [fname]) = true)
    (hchildren : iterdirFiles fs (root ++ [fname]) = [a, b, c])
    (hexta : IMAGE_EXT.contains (strLower (pathSuffix a)) = true)
    (hextb : IMAGE_EXT.contains (strLower (pathSuffix b)) = true)
    (hextc : IMAGE_EXT.contains (strLower (pathSuffix c)) = true)
    (hk1 : dedupeKey a ≠ dedupeKey b) (hk2 : dedupeKey a ≠ dedupeKey c)
    (hk3 : dedupeKey b ≠ dedupeKey c)
    (hone : (urlize a = pr.image ∧ urlize b ≠ pr.image ∧ urlize c ≠ pr.image) ∨
      (urlize a ≠ pr.image ∧ urlize b = pr.image ∧ urlize c ≠ pr.image) ∨
      (urlize a ≠ pr.image ∧ urlize b ≠ pr.image ∧ urlize c = pr.image)) :
    (syncProject fs root pr).images.length = 2 ∧
    pr.image ∉ (syncProject fs root pr).images := by
  have himg : (syncProject fs root pr).images
      = ((list_top_level_images fs (root ++ [fname])).map urlize).filter
          (fun e => e ≠ pr.image) := by
    unfold syncProject
    rw [hmap]
    simp [hex]
  have hsl : (sortByLower [a, b, c]).filter
      (fun f => IMAGE_EXT.contains (strLower (pathSuffix f))) = sortByLower [a, b, c] := by
    apply List.filter_eq_self.mpr
    intro x hx
    rcases (by simpa using (sortByLower_perm [a, b, c]).mem_iff.mp hx :
        x = a ∨ x = b ∨ x = c) with h | h | h
    · rw [h]; exact hexta
    · rw [h]; exact hextb
    · rw [h]; exact hextc
  have hlt : list_top_level_images fs (root ++ [fname])
      = dedupe_prefer (sortByLower [a, b, c]) := by
    unfold list_top_level_images
    rw [hchildren] at *
    simp only [hex, hdir, Bool.and_self, if_true]
    rw [hchildren, hsl]
  have hknd : ((sortByLower [a, b, c]).map dedupeKey).Nodup := by
    apply ((sortByLower_perm [a, b, c]).map dedupeKey).nodup_iff.mpr
    simp only [List.map_cons, List.map_nil]
    simp [List.nodup_cons, hk1, hk2, hk3]
  have hperm : (list_top_level_images fs (root ++ [fname])).Perm [a, b, c] := by
    rw [hlt]
    exact (dedupe_perm _ hknd).trans (sortByLower_perm _)
  have hgal : ((syncProject fs root pr).images).Perm
      (([a, b, c].map urlize).filter (fun e => e ≠ pr.image)) := by
    rw [himg]
    exact (hperm.map urlize).filter _
  constructor
  · rw [hgal.length_eq]
    rcases hone with ⟨h1, h2, h3⟩ | ⟨h1, h2, h3⟩ | ⟨h1, h2, h3⟩ <;>
      simp [List.filter_cons, h1, h2, h3]
  · intro hmem
    have h2 := List.mem_filter.mp (hgal.mem_iff.mp hmem)
    simp at h2

/-- C6 witness: the `Le Conde` folder with children `1.jpg`, `2.jpg`,
`main.jpg`, the last being the entry's main image. -/
theorem C6_witness :
    iterdirFiles fsLeConde (["Property Listing"] ++ ["Le Conde"])
      = [["Property Listing", "Le Conde", "1.jpg"],
         ["Property Listing", "Le Conde", "2.jpg"],
         ["Property Listing", "Le Conde", "main.jpg"]] ∧
    urlize ["Property Listing", "Le Conde", "main.jpg"] = prLeConde.image ∧
    ((syncProject fsLeConde ["Property Listing"] prLeConde).images.length = 2 ∧
      prLeConde.image ∉ (syncProject fsLeConde ["Property Listing"] prLeConde).images) :=
  ⟨by decide, by decide,
    C6_gallery_excludes_main fsLeConde ["Property Listing"] prLeConde "Le Conde"
      ["Property Listing", "Le Conde", "1.jpg"]
      ["Property Listing", "Le Conde", "2.jpg"]
      ["Property Listing", "Le Conde", "main.jpg"]
      (by decide) (by decide) (by decide) (by decide) (by decide) (by decide)
      (by decide) (by decide) (by decide) (by decide)
      (Or.inr (Or.inr ⟨by decide, by decide, by decide⟩))⟩

/-- C10 counterexample: the claim groups files by parent directory and
case-insensitive stem, but the code key also strips whitespace from the stem
(`stem.lower().strip()`).  In a folder holding `a .jpg` and `a.webp`, the two
share the code key, so only `a.webp` survives — and among the files sharing
the claim's key with `a .jpg` (namely `a .jpg` alone), none appears in the
output, refuting "exactly one appears". -/
theorem C10_counterexample :
    list_images fsStrip ["R"] = [["R", "a.webp"]] ∧
    ciStemKey ["R", "a .jpg"] ≠ ciStemKey ["R", "a.webp"] ∧
    dedupeKey ["R", "a .jpg"] = dedupeKey ["R", "a.webp"] ∧
    ((sortByLower (rglobFiles fsStrip ["R"])).filter
        (fun f => ASSET_EXT.contains (strLower (pathSuffix f)))).filter
      (fun q => ciStemKey q = ciStemKey ["R", "a .jpg"]) = [["R", "a .jpg"]] ∧
    ["R", "a .jpg"] ∉ list_images fsStrip ["R"] :=
  ⟨by decide, by decide, by decide, by decide, by decide⟩

/-- C10 amended: for every scanned folder, among all asset files sharing the
code's dedupe key — parent directory plus case-insensitive,
whitespace-stripped stem — exactly one appears in the output list, one with
the minimal extension-preference rank (`.webp` 0, `.jpg` 1, `.jpeg` 2,
`.png` 3, anything else 99), and the output is sorted case-insensitively by
full posix path. -/
theorem C10_dedupe_spec (fs : SyncFS) (d : List String)
    (hd : (pExists fs d && isDirFS fs d) = true) :
    (∀ q ∈ list_images fs d,
      q ∈ (sortByLower (rglobFiles fs d)).filter
        (fun f => ASSET_EXT.contains (strLower (pathSuffix f)))) ∧
    ((list_images fs d).map dedupeKey).Nodup ∧
    (∀ p2 ∈ (sortByLower (rglobFiles fs d)).filter
        (fun f => ASSET_EXT.contains (strLower (pathSuffix f))),
      ∃ q ∈ list_images fs d, dedupeKey q = dedupeKey p2) ∧
    (∀ q ∈ list_images fs d,
      ∀ p2 ∈ (sortByLower (rglobFiles fs d)).filter
        (fun f => ASSET_EXT.contains (strLower (pathSuffix f))),
      dedupeKey p2 = dedupeKey q → rankOf q ≤ rankOf p2) ∧
    List.Pairwise (fun x y =>
      lexLe (lowerPosixChars x) (lowerPosixChars y) = true) (list_images fs d) := by
  have hli : list_images fs d
      = dedupe_prefer ((sortByLower (rglobFiles fs d)).filter
          (fun f => ASSET_EXT.contains (strLower (pathSuffix f)))) := by
    unfold list_images
    rw [if_pos hd]
  have hout : list_images fs d
      = sortByLower ((List.foldl dedupeStep []
          ((sortByLower (rglobFiles fs d)).filter
            (fun f => ASSET_EXT.contains (strLower (pathSuffix f))))).map Prod.snd) := by
    rw [hli]
    rfl
  have hvperm : (list_images fs d).Perm
      ((List.foldl dedupeStep []
        ((sortByLower (rglobFiles fs d)).filter
          (fun f => ASSET_EXT.contains (strLower (pathSuffix f))))).map Prod.snd) := by
    rw [hout]
    exact sortByLower_perm _
  have hfmem : ∀ e ∈ List.foldl dedupeStep []
      ((sortByLower (rglobFiles fs d)).filter
        (fun f => ASSET_EXT.contains (strLower (pathSuffix f)))),
      e.2 ∈ (sortByLower (rglobFiles fs d)).filter
        (fun f => ASSET_EXT.contains (strLower (pathSuffix f))) ∧ e.1 = dedupeKey e.2 := by
    intro e he
    rcases dedupe_fold_mem _ [] e he with h | h
    · simp at h
    · exact h
  have hknd : ((List.foldl dedupeStep []
      ((sortByLower (rglobFiles fs d)).filter
        (fun f => ASSET_EXT.contains (strLower (pathSuffix f))))).map Prod.fst).Nodup :=
    dedupe_fold_keys_nodup _ [] (by simp)
  have hkeyeq : (List.foldl dedupeStep []
      ((sortByLower (rglobFiles fs d)).filter
        (fun f => ASSET_EXT.contains (strLower (pathSuffix f))))).map Prod.fst
      = ((List.foldl dedupeStep []
        ((sortByLower (rglobFiles fs d)).filter
          (fun f => ASSET_EXT.contains (strLower (pathSuffix f))))).map Prod.snd).map
          dedupeKey := by
    rw [List.map_map]
    exact List.map_congr_left (fun e he => (hfmem e he).2)
  refine ⟨?_, ?_, ?_, ?_, ?_⟩
  · intro q hq
    obtain ⟨e, he, hesnd⟩ := List.mem_map.mp (hvperm.mem_iff.mp hq)
    exact hesnd ▸ (hfmem e he).1
  · apply (hvperm.map dedupeKey).nodup_iff.mpr
    rw [← hkeyeq]
    exact hknd
  · intro p2 hp2
    have hkmem := dedupe_fold_keys_complete _ [] p2 hp2
    rw [hkeyeq] at hkmem
    obtain ⟨q, hqmem, hqk⟩ := List.mem_map.mp hkmem
    exact ⟨q, hvperm.mem_iff.mpr hqmem, hqk⟩
  · intro q hq p2 hp2 hkk
    obtain ⟨e, he, hesnd⟩ := List.mem_map.mp (hvperm.mem_iff.mp hq)
    have he2 : e = (dedupeKey q, q) := by
      obtain ⟨hm, hk⟩ := hfmem e he
      rw [hesnd] at hk
      exact Prod.ext hk hesnd
    have hlk : lookupA (List.foldl dedupeStep []
        ((sortByLower (rglobFiles fs d)).filter
          (fun f => ASSET_EXT.contains (strLower (pathSuffix f)))))
        (dedupeKey q) = some q :=
      lookupA_of_mem_nodup _ _ _ (he2 ▸ he) hknd
    apply dedupe_fold_min _ [] p2 hp2 q
    rw [hkk]
    exact hlk
  · rw [hout]
    exact sortByLower_pairwise _

/-- C10 witness: the spec holds on a folder holding `b.jpg`, `b.png` and
`c.pdf`: the two `b` files collapse to `b.jpg` (rank 1 beats rank 3), and the
output stays sorted. -/
theorem C10_witness :
    (pExists ⟨[["R"]], [["R", "b.png"], ["R", "b.jpg"], ["R", "c.pdf"]]⟩ ["R"] &&
      isDirFS ⟨[["R"]], [["R", "b.png"], ["R", "b.jpg"], ["R", "c.pdf"]]⟩ ["R"]) = true ∧
    list_images ⟨[["R"]], [["R", "b.png"], ["R", "b.jpg"], ["R", "c.pdf"]]⟩ ["R"]
      = [["R", "b.jpg"], ["R", "c.pdf"]] ∧
    (((list_images ⟨[["R"]], [["R", "b.png"], ["R", "b.jpg"], ["R", "c.pdf"]]⟩
        ["R"]).map dedupeKey).Nodup ∧
      List.Pairwise (fun x y =>
        lexLe (lowerPosixChars x) (lowerPosixChars y) = true)
        (list_images ⟨[["R"]], [["R", "b.png"], ["R", "b.jpg"], ["R", "c.pdf"]]⟩ ["R"])) :=
  ⟨by decide, by decide,
    (C10_dedupe_spec ⟨[["R"]], [["R", "b.png"], ["R", "b.jpg"], ["R", "c.pdf"]]⟩
      ["R"] (by decide)).2.1,
    (C10_dedupe_spec ⟨[["R"]], [["R", "b.png"], ["R", "b.jpg"], ["R", "c.pdf"]]⟩
      ["R"] (by decide)).2.2.2.2⟩
